import Mathlib

/-!
Verification of the pallet-packing knapsack core (`src/algorithms.cpp`).

The C++ core solves 0/1 knapsack with five strategies: exhaustive
enumeration (`runBruteForce`), backtracking (`runBruteForceBacktrack`),
a two-dimensional DP (`runDynamicProgramming`), a one-dimensional DP
(`runDynamicProgramming1D`) and a greedy heuristic (`runGreedyApproach`).
This file gives a shallow embedding of those functions over `Int`
(C++ `int`; the model uses unbounded integers, so C++ overflow is out of
scope) and proves the specification claims about them.

Conventions of the embedding:
* A C++ `std::vector<Pallet>` is a `List Pallet`; a result is the pair
  (max profit, selected ids) that the C++ functions print.
* The DP engines take the capacity as a `Nat`: the C++ functions take an
  `int`, but for a negative capacity they allocate a `vector` of
  non-positive size and index it out of bounds (undefined behavior), so
  only non-negative capacities are modelled for them.
* Out-of-range vector reads (which are undefined behavior in C++ and can
  only occur for a negative pallet weight) are modelled by `List.getD`
  returning the empty cell; all DP theorems assume non-negative weights.
-/

open scoped List

/-- A pallet record `{id, weight, profit}` (all C++ `int`). -/
structure Pallet where
  id : Int
  weight : Int
  profit : Int
deriving DecidableEq, Repr

/-- Total weight of a list of pallets. -/
def sumWeight (s : List Pallet) : Int := (s.map Pallet.weight).sum

/-- Total profit of a list of pallets. -/
def sumProfit (s : List Pallet) : Int := (s.map Pallet.profit).sum

/-- The ids of a list of pallets, in list order. -/
def idsOf (s : List Pallet) : List Int := s.map Pallet.id

theorem sumWeight_nil : sumWeight [] = 0 := rfl

theorem sumProfit_nil : sumProfit [] = 0 := rfl

theorem idsOf_nil : idsOf [] = [] := rfl

theorem sumWeight_append (s t : List Pallet) :
    sumWeight (s ++ t) = sumWeight s + sumWeight t := by
  simp [sumWeight]

theorem sumProfit_append (s t : List Pallet) :
    sumProfit (s ++ t) = sumProfit s + sumProfit t := by
  simp [sumProfit]

theorem idsOf_append (s t : List Pallet) : idsOf (s ++ t) = idsOf s ++ idsOf t := by
  simp [idsOf]

theorem sumWeight_cons (p : Pallet) (s : List Pallet) :
    sumWeight (p :: s) = p.weight + sumWeight s := by
  simp [sumWeight]

theorem sumProfit_cons (p : Pallet) (s : List Pallet) :
    sumProfit (p :: s) = p.profit + sumProfit s := by
  simp [sumProfit]

theorem sumWeight_nonneg {s : List Pallet} (h : ∀ p ∈ s, 0 ≤ p.weight) :
    0 ≤ sumWeight s := by
  induction s with
  | nil => simp [sumWeight]
  | cons p t ih =>
    rw [sumWeight_cons]
    have h1 := h p (List.mem_cons_self p t)
    have h2 := ih (fun q hq => h q (List.mem_cons_of_mem p hq))
    omega

/-- Lexicographic strict comparison of `std::vector<int>`
(`operator<` on vectors, i.e. `std::lexicographical_compare`). -/
def lexLt : List Int → List Int → Bool
  | _, [] => false
  | [], _ :: _ => true
  | a :: as, b :: bs => decide (a < b) || (decide (a = b) && lexLt as bs)

theorem lexLt_irrefl (l : List Int) : lexLt l l = false := by
  induction l with
  | nil => rfl
  | cons a as ih => simp [lexLt, ih]

theorem lexLt_trans {a b c : List Int} (h1 : lexLt a b = true) (h2 : lexLt b c = true) :
    lexLt a c = true := by
  induction a generalizing b c with
  | nil =>
    cases c with
    | nil =>
      cases b with
      | nil => exact h1
      | cons y ys => simp [lexLt] at h2
    | cons z zs => simp [lexLt]
  | cons x xs ih =>
    cases b with
    | nil => simp [lexLt] at h1
    | cons y ys =>
      cases c with
      | nil => simp [lexLt] at h2
      | cons z zs =>
        simp only [lexLt, Bool.or_eq_true, Bool.and_eq_true, decide_eq_true_eq] at h1 h2 ⊢
        rcases h1 with h1 | ⟨h1e, h1r⟩
        · rcases h2 with h2 | ⟨h2e, h2r⟩
          · exact Or.inl (by omega)
          · exact Or.inl (by omega)
        · rcases h2 with h2 | ⟨h2e, h2r⟩
          · exact Or.inl (by omega)
          · exact Or.inr ⟨by omega, ih h1r h2r⟩

theorem lexLt_eq_of_not {a b : List Int} (h1 : lexLt a b = false) (h2 : lexLt b a = false) :
    a = b := by
  induction a generalizing b with
  | nil =>
    cases b with
    | nil => rfl
    | cons y ys => simp [lexLt] at h1
  | cons x xs ih =>
    cases b with
    | nil => simp [lexLt] at h2
    | cons y ys =>
      simp only [lexLt, Bool.or_eq_false_iff, Bool.and_eq_false_iff,
        decide_eq_false_iff_not] at h1 h2
      obtain ⟨hxy, h1r⟩ := h1
      obtain ⟨hyx, h2r⟩ := h2
      have hxe : x = y := by omega
      subst hxe
      rcases h1r with h1r | h1r
      · omega
      · rcases h2r with h2r | h2r
        · omega
        · exact congrArg (x :: ·) (ih h1r h2r)

/-- Appending the same element to two lists of equal length does not change
their lexicographic comparison. -/
theorem lexLt_append_same {x y : List Int} (h : x.length = y.length) (i : Int) :
    lexLt (x ++ [i]) (y ++ [i]) = lexLt x y := by
  induction x generalizing y with
  | nil =>
    cases y with
    | nil => simp [lexLt, lexLt_irrefl]
    | cons b bs => simp at h
  | cons a as ih =>
    cases y with
    | nil => simp at h
    | cons b bs =>
      simp only [List.length_cons, Nat.succ.injEq] at h
      simp only [List.cons_append, lexLt, List.append_eq, ih h]

/-- The condition under which the brute-force and backtracking methods
replace the current best, `src/algorithms.cpp` lines 36–38 and 60–62:
`profit > maxProfit || (profit == maxProfit && size < bestSize) ||
(profit == maxProfit && size == bestSize && subset < bestSubset)`. -/
def betterThan (p : Int) (cur : List Int) (maxP : Int) (best : List Int) : Bool :=
  decide (p > maxP) || (decide (p = maxP) && decide (cur.length < best.length)) ||
    (decide (p = maxP) && decide (cur.length = best.length) && lexLt cur best)

/-- The DP cell (`struct DPCell`): profit, number of pallets, member ids in
the order they were appended (C++ `numPallets` is an `int` that always holds
the subset size; it is modelled as a `Nat`). -/
structure DPCell where
  profit : Int
  numPallets : Nat
  subset : List Int
deriving DecidableEq, Repr

/-- `DPCell::operator<` (`src/algorithms.cpp` lines 107–111): order by
profit, then by *more* pallets (so the greater cell has fewer pallets),
then by lexicographically *greater* subset (so the greater cell has the
lexicographically smaller subset). -/
def DPCell.lt (a b : DPCell) : Bool :=
  if a.profit ≠ b.profit then decide (a.profit < b.profit)
  else if a.numPallets ≠ b.numPallets then decide (b.numPallets < a.numPallets)
  else lexLt b.subset a.subset

/-- The empty candidate `{0, 0, {}}`. -/
def emptyCell : DPCell := ⟨0, 0, []⟩

/-- Adding a pallet to a cell (`with.profit += p; with.numPallets += 1;
with.subset.push_back(id)`). -/
def DPCell.addItem (c : DPCell) (p id : Int) : DPCell :=
  ⟨c.profit + p, c.numPallets + 1, c.subset ++ [id]⟩

/-- `std::max(a, b)` under `DPCell::operator<`: returns `b` iff `a < b`. -/
def maxCell (a b : DPCell) : DPCell := if DPCell.lt a b then b else a

/-- The candidate a subset of pallets induces: its profit, size and ids in
subset (= catalog) order. -/
def candOf (s : List Pallet) : DPCell := ⟨sumProfit s, s.length, idsOf s⟩

/-- A (profit, ids) result seen as a DP cell. -/
def pairCell (r : Int × List Int) : DPCell := ⟨r.1, r.2.length, r.2⟩

theorem pairCell_inj {r₁ r₂ : Int × List Int} (h : pairCell r₁ = pairCell r₂) :
    r₁ = r₂ := by
  obtain ⟨p₁, l₁⟩ := r₁
  obtain ⟨p₂, l₂⟩ := r₂
  simp only [pairCell, DPCell.mk.injEq] at h
  simp [h.1, h.2.2]

theorem pairCell_candOf (s : List Pallet) :
    pairCell (sumProfit s, idsOf s) = candOf s := by
  simp [pairCell, candOf, idsOf]

theorem DPCell.lt_irrefl (c : DPCell) : DPCell.lt c c = false := by
  simp [DPCell.lt, lexLt_irrefl]

theorem DPCell.lt_eq_of_not {a b : DPCell} (h1 : DPCell.lt a b = false)
    (h2 : DPCell.lt b a = false) : a = b := by
  obtain ⟨pa, na, sa⟩ := a
  obtain ⟨pb, nb, sb⟩ := b
  by_cases hp : pa = pb
  · subst hp
    by_cases hn : na = nb
    · subst hn
      simp only [DPCell.lt, ne_eq, not_true_eq_false, if_false] at h1 h2
      exact congrArg (DPCell.mk pa na) (lexLt_eq_of_not h2 h1)
    · have hn2 : nb ≠ na := fun h => hn h.symm
      simp only [DPCell.lt, ne_eq, not_true_eq_false, if_false, hn, hn2,
        not_false_eq_true, if_true, decide_eq_false_iff_not, not_lt] at h1 h2
      omega
  · have hp2 : pb ≠ pa := fun h => hp h.symm
    simp only [DPCell.lt, ne_eq, hp, hp2, not_false_eq_true, if_true,
      decide_eq_false_iff_not, not_lt] at h1 h2
    omega

theorem DPCell.lt_trans {a b c : DPCell} (h1 : DPCell.lt a b = true)
    (h2 : DPCell.lt b c = true) : DPCell.lt a c = true := by
  obtain ⟨pa, na, sa⟩ := a
  obtain ⟨pb, nb, sb⟩ := b
  obtain ⟨pc, nc, sc⟩ := c
  by_cases hab : pa = pb <;> by_cases hbc : pb = pc
  · subst hab; subst hbc
    by_cases hn1 : na = nb <;> by_cases hn2 : nb = nc
    · subst hn1; subst hn2
      simp only [DPCell.lt, ne_eq, not_true_eq_false, if_false] at h1 h2 ⊢
      exact lexLt_trans h2 h1
    · subst hn1
      simp only [DPCell.lt, ne_eq, not_true_eq_false, if_false, hn2,
        not_false_eq_true, if_true] at h2 ⊢
      exact h2
    · subst hn2
      simp only [DPCell.lt, ne_eq, not_true_eq_false, if_false, hn1,
        not_false_eq_true, if_true] at h1 ⊢
      exact h1
    · simp only [DPCell.lt, ne_eq, not_true_eq_false, if_false, hn1, hn2,
        not_false_eq_true, if_true, decide_eq_true_eq] at h1 h2
      have hn3 : na ≠ nc := by omega
      simp only [DPCell.lt, ne_eq, not_true_eq_false, if_false, hn3,
        not_false_eq_true, if_true, decide_eq_true_eq]
      omega
  · subst hab
    simp only [DPCell.lt, ne_eq, hbc, not_false_eq_true, if_true,
      decide_eq_true_eq] at h2 ⊢
    exact h2
  · subst hbc
    simp only [DPCell.lt, ne_eq, hab, not_false_eq_true, if_true,
      decide_eq_true_eq] at h1 ⊢
    exact h1
  · simp only [DPCell.lt, ne_eq, hab, hbc, not_false_eq_true, if_true,
      decide_eq_true_eq] at h1 h2
    have hac : pa ≠ pc := by omega
    simp only [DPCell.lt, ne_eq, hac, not_false_eq_true, if_true, decide_eq_true_eq]
    omega

theorem DPCell.lt_asymm {a b : DPCell} (h : DPCell.lt a b = true) :
    DPCell.lt b a = false := by
  cases hba : DPCell.lt b a with
  | false => rfl
  | true =>
    have h2 := DPCell.lt_trans h hba
    rw [DPCell.lt_irrefl] at h2
    simp at h2

theorem DPCell.ge_trans {a b c : DPCell} (h1 : DPCell.lt a b = false)
    (h2 : DPCell.lt b c = false) : DPCell.lt a c = false := by
  cases hac : DPCell.lt a c with
  | false => rfl
  | true =>
    exfalso
    cases hcb : DPCell.lt c b with
    | false =>
      have heq := DPCell.lt_eq_of_not h2 hcb
      subst heq
      rw [hac] at h1
      simp at h1
    | true =>
      have h3 := DPCell.lt_trans hac hcb
      rw [h3] at h1
      simp at h1

/-- Decoding of the subset-counter `total` in `runBruteForce` lines 14–33:
bit `i` of `total` (`total % 2`, then `total /= 2`) selects pallet `i`;
the selected pallets are collected in catalog order. -/
def subsetOf : List Pallet → Nat → List Pallet
  | [], _ => []
  | p :: ps, m => if m % 2 = 1 then p :: subsetOf ps (m / 2) else subsetOf ps (m / 2)

/-- All subsets in the order the brute-force counter enumerates them. -/
def maskSubsets (pallets : List Pallet) : List (List Pallet) :=
  (List.range (2 ^ pallets.length)).map (subsetOf pallets)

/-- All subsets in the order the backtracking recursion reaches its leaves
(exclude-branch before include-branch). -/
def btSubsets : List Pallet → List (List Pallet)
  | [] => [[]]
  | p :: ps => btSubsets ps ++ (btSubsets ps).map (p :: ·)

theorem subsetOf_zero (pallets : List Pallet) : subsetOf pallets 0 = [] := by
  induction pallets with
  | nil => rfl
  | cons p ps ih => simp [subsetOf, ih]

theorem subsetOf_sublist (pallets : List Pallet) (m : Nat) :
    subsetOf pallets m <+ pallets := by
  induction pallets generalizing m with
  | nil => exact List.Sublist.refl _
  | cons p ps ih =>
    by_cases h : m % 2 = 1
    · simp only [subsetOf, h, if_true]
      exact (ih (m / 2)).cons₂ p
    · simp only [subsetOf, h, if_false]
      exact (ih (m / 2)).cons p

theorem mem_maskSubsets_iff {pallets : List Pallet} {s : List Pallet} :
    s ∈ maskSubsets pallets ↔ s <+ pallets := by
  constructor
  · intro h
    simp only [maskSubsets, List.mem_map, List.mem_range] at h
    obtain ⟨m, _, rfl⟩ := h
    exact subsetOf_sublist pallets m
  · intro h
    simp only [maskSubsets, List.mem_map, List.mem_range]
    induction h with
    | slnil => exact ⟨0, by simp [subsetOf_zero], rfl⟩
    | @cons l₁ l₂ p hsub ih =>
      obtain ⟨m, hm, hsm⟩ := ih
      refine ⟨2 * m, ?_, ?_⟩
      · simp only [List.length_cons, pow_succ]
        omega
      · simp only [subsetOf]
        have h1 : 2 * m % 2 = 0 := by omega
        have h2 : 2 * m / 2 = m := by omega
        simp [h1, h2, hsm]
    | @cons₂ l₁ l₂ p hsub ih =>
      obtain ⟨m, hm, hsm⟩ := ih
      refine ⟨2 * m + 1, ?_, ?_⟩
      · simp only [List.length_cons, pow_succ]
        omega
      · simp only [subsetOf]
        have h1 : (2 * m + 1) % 2 = 1 := by omega
        have h2 : (2 * m + 1) / 2 = m := by omega
        simp [h1, h2, hsm]

theorem mem_btSubsets_iff {pallets : List Pallet} {s : List Pallet} :
    s ∈ btSubsets pallets ↔ s <+ pallets := by
  induction pallets generalizing s with
  | nil =>
    simp only [btSubsets, List.mem_singleton]
    constructor
    · rintro rfl; exact List.Sublist.refl _
    · intro h; exact List.sublist_nil.mp h
  | cons p ps ih =>
    simp only [btSubsets, List.mem_append, List.mem_map, List.sublist_cons_iff, ih]
    constructor
    · rintro (h | ⟨r, hr, rfl⟩)
      · exact Or.inl h
      · exact Or.inr ⟨r, rfl, hr⟩
    · rintro (h | ⟨r, rfl, hr⟩)
      · exact Or.inl h
      · exact Or.inr ⟨r, hr, rfl⟩

/-- One step of the brute-force loop body (`runBruteForce` lines 14–44) for
a given subset counter value. -/
def bfStep (pallets : List Pallet) (capacity : Int) (best : Int × List Int)
    (total : Nat) : Int × List Int :=
  let sub := subsetOf pallets total
  if sumWeight sub ≤ capacity ∧
      betterThan (sumProfit sub) (idsOf sub) best.1 best.2 = true
  then (sumProfit sub, idsOf sub) else best

/-- `runBruteForce` (lines 8–52): fold the loop body over all
`2^n` subset counters, starting from profit 0 and the empty subset.
The returned pair is (max profit, selected ids) as printed. -/
def runBruteForce (pallets : List Pallet) (capacity : Int) : Int × List Int :=
  (List.range (2 ^ pallets.length)).foldl (bfStep pallets capacity) (0, [])

/-- `backtrackKnapsack` (lines 55–85). The C++ version carries the full
catalog plus an index; here the yet-unprocessed suffix is passed, and the
two reference parameters `maxProfit`/`bestSet` are the `best` pair. -/
def backtrackKnapsack (capacity : Int) :
    List Pallet → Int → Int → List Int → Int × List Int → Int × List Int
  | [], curW, curP, curSet, best =>
    if curW ≤ capacity ∧ betterThan curP curSet best.1 best.2 = true
    then (curP, curSet) else best
  | q :: rest, curW, curP, curSet, best =>
    if curW > capacity then best
    else
      backtrackKnapsack capacity rest (curW + q.weight) (curP + q.profit)
        (curSet ++ [q.id])
        (backtrackKnapsack capacity rest curW curP curSet best)

/-- `runBruteForceBacktrack` (lines 88–100). -/
def runBruteForceBacktrack (pallets : List Pallet) (capacity : Int) : Int × List Int :=
  backtrackKnapsack capacity pallets 0 0 [] (0, [])

/-- The common "keep the better feasible candidate" step, phrased on DP
cells: both exact searches and the DP recurrences reduce to folds of this
step over a list of candidate subsets. -/
def stepC (capacity : Int) (b : DPCell) (s : List Pallet) : DPCell :=
  if sumWeight s ≤ capacity ∧ DPCell.lt b (candOf s) = true then candOf s else b

/-- The update test of the exact searches equals the DP cell order on the
corresponding cells: the four exact methods share one tie-break ordering. -/
theorem betterThan_eq_cellLt (p : Int) (cur : List Int) (maxP : Int) (best : List Int) :
    betterThan p cur maxP best = DPCell.lt ⟨maxP, best.length, best⟩ ⟨p, cur.length, cur⟩ := by
  by_cases hp : maxP = p
  · subst hp
    by_cases hn : best.length = cur.length
    · simp [betterThan, DPCell.lt, hn]
    · have hn2 : cur.length ≠ best.length := fun h => hn h.symm
      simp [betterThan, DPCell.lt, hn, hn2]
  · have hp2 : p ≠ maxP := fun h => hp h.symm
    simp [betterThan, DPCell.lt, hp, hp2]

/-- `c` is the best feasible candidate over all subsets (sublists) of
`pallets` whose weight fits in `capacity`, under `DPCell::operator<`:
it is such a candidate, and no such candidate beats it. -/
def IsBestCell (capacity : Int) (pallets : List Pallet) (c : DPCell) : Prop :=
  (∃ s, s <+ pallets ∧ sumWeight s ≤ capacity ∧ candOf s = c) ∧
  ∀ s, s <+ pallets → sumWeight s ≤ capacity → DPCell.lt c (candOf s) = false

theorem IsBestCell.unique {capacity : Int} {pallets : List Pallet} {c₁ c₂ : DPCell}
    (h1 : IsBestCell capacity pallets c₁) (h2 : IsBestCell capacity pallets c₂) :
    c₁ = c₂ := by
  obtain ⟨⟨s₁, hs₁, hf₁, he₁⟩, hd₁⟩ := h1
  obtain ⟨⟨s₂, hs₂, hf₂, he₂⟩, hd₂⟩ := h2
  have h12 : DPCell.lt c₁ c₂ = false := he₂ ▸ hd₁ s₂ hs₂ hf₂
  have h21 : DPCell.lt c₂ c₁ = false := he₁ ▸ hd₂ s₁ hs₁ hf₁
  exact DPCell.lt_eq_of_not h12 h21

theorem stepC_ge (capacity : Int) (b : DPCell) (s : List Pallet) :
    DPCell.lt (stepC capacity b s) b = false := by
  unfold stepC
  split
  · next h => exact DPCell.lt_asymm h.2
  · exact DPCell.lt_irrefl b

theorem stepC_ge_cand (capacity : Int) (b : DPCell) (s : List Pallet)
    (hf : sumWeight s ≤ capacity) :
    DPCell.lt (stepC capacity b s) (candOf s) = false := by
  unfold stepC
  split
  · exact DPCell.lt_irrefl _
  · next h =>
    cases hlt : DPCell.lt b (candOf s) with
    | false => rfl
    | true => exact absurd ⟨hf, hlt⟩ h

theorem foldl_stepC_ge_init (capacity : Int) (l : List (List Pallet)) (b : DPCell) :
    DPCell.lt (l.foldl (stepC capacity) b) b = false := by
  induction l generalizing b with
  | nil => exact DPCell.lt_irrefl b
  | cons s rest ih =>
    exact DPCell.ge_trans (ih (stepC capacity b s)) (stepC_ge capacity b s)

theorem foldl_stepC_ge_elem (capacity : Int) (l : List (List Pallet)) (b : DPCell) :
    ∀ s ∈ l, sumWeight s ≤ capacity →
      DPCell.lt (l.foldl (stepC capacity) b) (candOf s) = false := by
  induction l generalizing b with
  | nil => intro s hs; exact absurd hs (List.not_mem_nil s)
  | cons s₀ rest ih =>
    intro s hs hf
    rcases List.mem_cons.mp hs with rfl | hs
    · exact DPCell.ge_trans (foldl_stepC_ge_init capacity rest (stepC capacity b s))
        (stepC_ge_cand capacity b s hf)
    · exact ih (stepC capacity b s₀) s hs hf

theorem foldl_stepC_mem (capacity : Int) (l : List (List Pallet)) (b : DPCell) :
    l.foldl (stepC capacity) b = b ∨
      ∃ s ∈ l, sumWeight s ≤ capacity ∧ candOf s = l.foldl (stepC capacity) b := by
  induction l generalizing b with
  | nil => exact Or.inl rfl
  | cons s₀ rest ih =>
    rcases ih (stepC capacity b s₀) with h | ⟨s, hs, hf, he⟩
    · by_cases hc : sumWeight s₀ ≤ capacity ∧ DPCell.lt b (candOf s₀) = true
      · refine Or.inr ⟨s₀, List.mem_cons_self _ _, hc.1, ?_⟩
        rw [List.foldl_cons, h]
        unfold stepC
        rw [if_pos hc]
      · refine Or.inl ?_
        rw [List.foldl_cons, h]
        unfold stepC
        rw [if_neg hc]
    · exact Or.inr ⟨s, List.mem_cons_of_mem s₀ hs, hf,
        by rw [List.foldl_cons]; exact he⟩

theorem foldl_stepC_of_infeasible (capacity : Int) (l : List (List Pallet)) (b : DPCell)
    (h : ∀ s ∈ l, ¬ sumWeight s ≤ capacity) : l.foldl (stepC capacity) b = b := by
  induction l generalizing b with
  | nil => rfl
  | cons s₀ rest ih =>
    have hstep : stepC capacity b s₀ = b := by
      unfold stepC
      split
      · next hc => exact absurd hc.1 (h s₀ (List.mem_cons_self _ _))
      · rfl
    rw [List.foldl_cons, hstep]
    exact ih b (fun s hs => h s (List.mem_cons_of_mem s₀ hs))

theorem cell_candOf (t : List Pallet) :
    (⟨sumProfit t, (idsOf t).length, idsOf t⟩ : DPCell) = candOf t := by
  simp [candOf, idsOf]

theorem bfStep_cell (pallets : List Pallet) (capacity : Int) (b : Int × List Int)
    (m : Nat) :
    pairCell (bfStep pallets capacity b m) = stepC capacity (pairCell b) (subsetOf pallets m) := by
  show pairCell (if sumWeight (subsetOf pallets m) ≤ capacity ∧
      betterThan (sumProfit (subsetOf pallets m)) (idsOf (subsetOf pallets m)) b.1 b.2 = true
    then (sumProfit (subsetOf pallets m), idsOf (subsetOf pallets m)) else b) = _
  unfold stepC
  rw [betterThan_eq_cellLt]
  have hb : (⟨b.1, b.2.length, b.2⟩ : DPCell) = pairCell b := rfl
  rw [hb, cell_candOf]
  split
  · exact pairCell_candOf _
  · rfl

theorem bf_foldl_cell (pallets : List Pallet) (capacity : Int) (l : List Nat) :
    ∀ b : Int × List Int,
      pairCell (l.foldl (bfStep pallets capacity) b) =
        (l.map (subsetOf pallets)).foldl (stepC capacity) (pairCell b) := by
  induction l with
  | nil => intro b; rfl
  | cons m rest ih =>
    intro b
    rw [List.foldl_cons, List.map_cons, List.foldl_cons, ih, bfStep_cell]

theorem runBruteForce_cell (pallets : List Pallet) (capacity : Int) :
    pairCell (runBruteForce pallets capacity) =
      (maskSubsets pallets).foldl (stepC capacity) emptyCell := by
  unfold runBruteForce maskSubsets
  rw [bf_foldl_cell]
  rfl

theorem candOf_nil : candOf [] = emptyCell := rfl

theorem bf_isBest (pallets : List Pallet) (capacity : Int) (hc : 0 ≤ capacity) :
    IsBestCell capacity pallets (pairCell (runBruteForce pallets capacity)) := by
  constructor
  · rcases foldl_stepC_mem capacity (maskSubsets pallets) emptyCell with h | ⟨s, hs, hf, he⟩
    · refine ⟨[], List.nil_sublist pallets, ?_, ?_⟩
      · rw [sumWeight_nil]; exact hc
      · rw [candOf_nil, runBruteForce_cell, h]
    · exact ⟨s, mem_maskSubsets_iff.mp hs, hf, by rw [runBruteForce_cell, he]⟩
  · intro s hs hf
    rw [runBruteForce_cell]
    exact foldl_stepC_ge_elem capacity (maskSubsets pallets) emptyCell s
      (mem_maskSubsets_iff.mpr hs) hf

theorem btk_cell (capacity : Int) (rest : List Pallet) :
    ∀ (t : List Pallet) (best : Int × List Int), (∀ q ∈ rest, 0 ≤ q.weight) →
      pairCell (backtrackKnapsack capacity rest (sumWeight t) (sumProfit t) (idsOf t) best) =
        ((btSubsets rest).map (fun s => t ++ s)).foldl (stepC capacity) (pairCell best) := by
  induction rest with
  | nil =>
    intro t best _
    show pairCell (if sumWeight t ≤ capacity ∧
        betterThan (sumProfit t) (idsOf t) best.1 best.2 = true
      then (sumProfit t, idsOf t) else best) = _
    have : ((btSubsets []).map (fun s => t ++ s)) = [t] := by
      simp [btSubsets]
    rw [this, List.foldl_cons, List.foldl_nil]
    unfold stepC
    rw [betterThan_eq_cellLt]
    have hb : (⟨best.1, best.2.length, best.2⟩ : DPCell) = pairCell best := rfl
    rw [hb, cell_candOf]
    split
    · exact pairCell_candOf _
    · rfl
  | cons q rest ih =>
    intro t best hw
    have hwr : ∀ p ∈ rest, 0 ≤ p.weight := fun p hp => hw p (List.mem_cons_of_mem q hp)
    show pairCell (if sumWeight t > capacity then best
      else backtrackKnapsack capacity rest (sumWeight t + q.weight)
        (sumProfit t + q.profit) (idsOf t ++ [q.id])
        (backtrackKnapsack capacity rest (sumWeight t) (sumProfit t) (idsOf t) best)) = _
    by_cases hcap : sumWeight t > capacity
    · rw [if_pos hcap]
      rw [foldl_stepC_of_infeasible]
      intro s hs
      simp only [List.mem_map] at hs
      obtain ⟨s₀, hs₀, rfl⟩ := hs
      have hsub : s₀ <+ q :: rest := mem_btSubsets_iff.mp hs₀
      have hnn : 0 ≤ sumWeight s₀ :=
        sumWeight_nonneg (fun p hp => hw p (hsub.subset hp))
      rw [sumWeight_append]
      omega
    · rw [if_neg hcap]
      have hq : sumWeight t + q.weight = sumWeight (t ++ [q]) := by
        rw [sumWeight_append, sumWeight_cons, sumWeight_nil]; ring
      have hp : sumProfit t + q.profit = sumProfit (t ++ [q]) := by
        rw [sumProfit_append, sumProfit_cons, sumProfit_nil]; ring
      have hi : idsOf t ++ [q.id] = idsOf (t ++ [q]) := by
        rw [idsOf_append]; rfl
      rw [hq, hp, hi, ih (t ++ [q]) _ hwr]
      have hmap : (btSubsets (q :: rest)).map (fun s => t ++ s) =
          (btSubsets rest).map (fun s => t ++ s) ++
            (btSubsets rest).map (fun s => (t ++ [q]) ++ s) := by
        show ((btSubsets rest ++ (btSubsets rest).map (q :: ·)).map (fun s => t ++ s)) = _
        rw [List.map_append, List.map_map]
        congr 1
        apply List.map_congr_left
        intro s _
        show t ++ (q :: s) = (t ++ [q]) ++ s
        simp
      rw [hmap, List.foldl_append, ih t best hwr]

theorem runBruteForceBacktrack_cell (pallets : List Pallet) (capacity : Int)
    (hw : ∀ q ∈ pallets, 0 ≤ q.weight) :
    pairCell (runBruteForceBacktrack pallets capacity) =
      (btSubsets pallets).foldl (stepC capacity) emptyCell := by
  unfold runBruteForceBacktrack
  have h0 : (0 : Int) = sumWeight [] := rfl
  have h1 : (0 : Int) = sumProfit [] := rfl
  have h2 : ([] : List Int) = idsOf [] := rfl
  rw [show backtrackKnapsack capacity pallets 0 0 [] (0, []) =
      backtrackKnapsack capacity pallets (sumWeight []) (sumProfit []) (idsOf []) (0, []) from rfl,
    btk_cell capacity pallets [] (0, []) hw]
  have : (btSubsets pallets).map (fun s => [] ++ s) = btSubsets pallets := by
    simp
  rw [this]
  rfl

theorem bt_isBest (pallets : List Pallet) (capacity : Int) (hc : 0 ≤ capacity)
    (hw : ∀ q ∈ pallets, 0 ≤ q.weight) :
    IsBestCell capacity pallets (pairCell (runBruteForceBacktrack pallets capacity)) := by
  constructor
  · rcases foldl_stepC_mem capacity (btSubsets pallets) emptyCell with h | ⟨s, hs, hf, he⟩
    · refine ⟨[], List.nil_sublist pallets, ?_, ?_⟩
      · rw [sumWeight_nil]; exact hc
      · rw [candOf_nil, runBruteForceBacktrack_cell pallets capacity hw, h]
    · exact ⟨s, mem_btSubsets_iff.mp hs, hf,
        by rw [runBruteForceBacktrack_cell pallets capacity hw, he]⟩
  · intro s hs hf
    rw [runBruteForceBacktrack_cell pallets capacity hw]
    exact foldl_stepC_ge_elem capacity (btSubsets pallets) emptyCell s
      (mem_btSubsets_iff.mpr hs) hf

/-- One row step of the 2-D DP (`runDynamicProgramming` lines 125–146):
from row `i-1` compute row `i` for pallet `i` over all capacities
`j = 0..capacity`.  The C++ reads `dp[i-1][j-w]`, valid because `j >= w`;
for a (contract-violating) negative weight that read is out of bounds in
C++ and yields `emptyCell` here. -/
def dp2dRow (prev : List DPCell) (capacity : Nat) (pal : Pallet) : List DPCell :=
  (List.range (capacity + 1)).map (fun j =>
    maxCell (prev.getD j emptyCell)
      (if pal.weight ≤ (j : Int)
        then (prev.getD ((j : Int) - pal.weight).toNat emptyCell).addItem pal.profit pal.id
        else emptyCell))

/-- The last row of the 2-D DP table: row 0 is all empty cells
(lines 121–123), then one `dp2dRow` per pallet in catalog order.  The C++
loop state after processing `i` pallets is exactly this fold over the
first `i` pallets. -/
def dp2dLastRow (pallets : List Pallet) (capacity : Nat) : List DPCell :=
  pallets.foldl (fun prev pal => dp2dRow prev capacity pal)
    (List.replicate (capacity + 1) emptyCell)

/-- `runDynamicProgramming` (lines 116–156): the reported cell is
`dp[n][capacity]`. -/
def runDynamicProgramming (pallets : List Pallet) (capacity : Nat) : DPCell :=
  (dp2dLastRow pallets capacity).getD capacity emptyCell

/-- The body of the 1-D DP inner loop (lines 168–177) at position `j`:
when `j >= w`, build `with = dp[j-w] + pallet` and overwrite `dp[j]` if
`dp[j] < with`.  The guard `w ≤ j` encodes the loop's lower bound `j >= w`. -/
def dp1dUpdate (w p pid : Int) (dp : List DPCell) (j : Nat) : List DPCell :=
  if w ≤ (j : Int) then
    if DPCell.lt (dp.getD j emptyCell)
        ((dp.getD ((j : Int) - w).toNat emptyCell).addItem p pid)
    then dp.set j ((dp.getD ((j : Int) - w).toNat emptyCell).addItem p pid)
    else dp
  else dp

/-- The 1-D DP inner loop: `for (j = capacity; j >= w; --j)`, performing
the in-place updates from `j` down to 0 (positions below `w` are no-ops
by the guard in `dp1dUpdate`). -/
def dp1dScan (w p pid : Int) : Nat → List DPCell → List DPCell
  | 0, dp => dp1dUpdate w p pid dp 0
  | j + 1, dp => dp1dScan w p pid j (dp1dUpdate w p pid dp (j + 1))

/-- The 1-D DP array after processing all pallets (lines 160–178). -/
def dp1dArray (pallets : List Pallet) (capacity : Nat) : List DPCell :=
  pallets.foldl (fun dp pal => dp1dScan pal.weight pal.profit pal.id capacity dp)
    (List.replicate (capacity + 1) emptyCell)

/-- `runDynamicProgramming1D` (lines 158–194): after the in-place passes,
scan the whole array (`best = dp[0]; for j = 1..capacity: if best < dp[j]
best = dp[j]`). -/
def runDynamicProgramming1D (pallets : List Pallet) (capacity : Nat) : DPCell :=
  match dp1dArray pallets capacity with
  | [] => emptyCell
  | c :: rest => rest.foldl (fun best c2 => if DPCell.lt best c2 then c2 else best) c

theorem getD_map_range (f : Nat → DPCell) (n j : Nat) (h : j < n) :
    ((List.range n).map f).getD j emptyCell = f j := by
  rw [List.getD_eq_getElem?_getD, List.getElem?_map, List.getElem?_range h]
  rfl

theorem getD_replicate (n j : Nat) :
    (List.replicate n emptyCell).getD j emptyCell = emptyCell := by
  rw [List.getD_eq_getElem?_getD, List.getElem?_replicate]
  split <;> rfl

theorem maxCell_ge_left (a b : DPCell) : DPCell.lt (maxCell a b) a = false := by
  unfold maxCell
  split
  · next h => exact DPCell.lt_asymm h
  · exact DPCell.lt_irrefl a

theorem maxCell_ge_right (a b : DPCell) : DPCell.lt (maxCell a b) b = false := by
  unfold maxCell
  split
  · exact DPCell.lt_irrefl b
  · next h => exact Bool.eq_false_iff.mpr h

theorem maxCell_cases (a b : DPCell) : maxCell a b = a ∨ maxCell a b = b := by
  unfold maxCell
  split
  · exact Or.inr rfl
  · exact Or.inl rfl

theorem candOf_append_single (s : List Pallet) (q : Pallet) :
    candOf (s ++ [q]) = (candOf s).addItem q.profit q.id := by
  simp [candOf, DPCell.addItem, sumProfit_append, sumProfit_cons, sumProfit_nil,
    idsOf_append, idsOf]

/-- Appending the same pallet to two well-formed cells (cells whose
`numPallets` matches their subset length) preserves the cell order.
This is why the DP recurrence is compatible with the tie-break order. -/
theorem cellLt_addItem {c d : DPCell} (hc : c.subset.length = c.numPallets)
    (hd : d.subset.length = d.numPallets) (p pid : Int) :
    DPCell.lt (c.addItem p pid) (d.addItem p pid) = DPCell.lt c d := by
  obtain ⟨pc, nc, sc⟩ := c
  obtain ⟨pd, nd, sd⟩ := d
  simp only at hc hd
  by_cases hp : pc = pd
  · subst hp
    by_cases hn : nc = nd
    · subst hn
      simp only [DPCell.addItem, DPCell.lt, ne_eq, add_right_cancel_iff,
        not_true_eq_false, if_false]
      exact lexLt_append_same (by omega) pid
    · have hn1 : nc + 1 ≠ nd + 1 := by omega
      simp only [DPCell.addItem, DPCell.lt, ne_eq, add_right_cancel_iff,
        not_true_eq_false, if_false, hn, hn1, not_false_eq_true, if_true]
      simp only [decide_eq_decide]
      omega
  · have hp1 : pc + p ≠ pd + p := by omega
    simp only [DPCell.addItem, DPCell.lt, ne_eq, hp, hp1, not_false_eq_true, if_true]
    simp only [decide_eq_decide]
    omega

theorem sublist_single {q : Pallet} {l : List Pallet} (h : l <+ [q]) :
    l = [] ∨ l = [q] := by
  cases h with
  | cons _ h2 => exact Or.inl (List.sublist_nil.mp h2)
  | cons₂ _ h2 => exact Or.inr (by rw [List.sublist_nil.mp h2])

theorem IsBestCell.wf {capacity : Int} {pallets : List Pallet} {c : DPCell}
    (h : IsBestCell capacity pallets c) : c.subset.length = c.numPallets := by
  obtain ⟨⟨s, _, _, he⟩, _⟩ := h
  rw [← he]
  simp [candOf, idsOf]

theorem maxCell_emptyCell {capacity : Int} {pallets : List Pallet} {c : DPCell}
    (h : IsBestCell capacity pallets c) (hc : 0 ≤ capacity) :
    maxCell c emptyCell = c := by
  have hd := h.2 [] (List.nil_sublist pallets) (by rw [sumWeight_nil]; exact hc)
  rw [candOf_nil] at hd
  unfold maxCell
  rw [hd]
  simp

/-- Preservation of the DP invariant by one pallet step: if `A j` is the
best cell over sublists of `pre` within capacity `j` for every `j`, and
`B` is obtained from `A` by the shared DP recurrence for pallet `q`
(`B[j] = max(A[j], A[j - w] + q)` when `j ≥ w`, else `A[j]`), then `B j`
is the best cell over sublists of `pre ++ [q]` within `j`. -/
theorem dpStep_invariant (capacity : Nat) (pre : List Pallet) (q : Pallet)
    (hw : ∀ r ∈ pre ++ [q], 0 ≤ r.weight)
    (A B : Nat → DPCell)
    (hA : ∀ j, j ≤ capacity → IsBestCell (j : Int) pre (A j))
    (hB : ∀ j, j ≤ capacity → B j =
      if q.weight ≤ (j : Int)
      then maxCell (A j) ((A ((j : Int) - q.weight).toNat).addItem q.profit q.id)
      else A j) :
    ∀ j, j ≤ capacity → IsBestCell (j : Int) (pre ++ [q]) (B j) := by
  intro j hj
  have hqw : 0 ≤ q.weight := hw q (by simp)
  have hpre : ∀ r ∈ pre, 0 ≤ r.weight := fun r hr => hw r (by simp [hr])
  rw [hB j hj]
  by_cases hwle : q.weight ≤ (j : Int)
  · rw [if_pos hwle]
    set j2 : Nat := ((j : Int) - q.weight).toNat with hj2def
    have hj2cast : (j2 : Int) = (j : Int) - q.weight := by
      rw [hj2def]
      exact Int.toNat_of_nonneg (by omega)
    have hj2le : j2 ≤ capacity := by omega
    obtain ⟨⟨s₀, hs₀sub, hs₀f, hs₀e⟩, hd₀⟩ := hA j hj
    obtain ⟨⟨s₁, hs₁sub, hs₁f, hs₁e⟩, hd₁⟩ := hA j2 hj2le
    have hWe : (A j2).addItem q.profit q.id = candOf (s₁ ++ [q]) := by
      rw [candOf_append_single, hs₁e]
    constructor
    · rcases maxCell_cases (A j) ((A j2).addItem q.profit q.id) with hm | hm
      · exact ⟨s₀, List.sublist_append_of_sublist_left hs₀sub, hs₀f, by rw [hs₀e, hm]⟩
      · refine ⟨s₁ ++ [q], hs₁sub.append (List.Sublist.refl [q]), ?_, by rw [← hWe, hm]⟩
        rw [sumWeight_append, sumWeight_cons, sumWeight_nil]
        rw [hj2cast] at hs₁f
        omega
    · intro s hssub hsf
      rcases List.sublist_append_iff.mp hssub with ⟨l₁, l₂, rfl, hl₁, hl₂⟩
      rcases sublist_single hl₂ with rfl | rfl
      · rw [List.append_nil] at hsf ⊢
        exact DPCell.ge_trans (maxCell_ge_left _ _) (hd₀ l₁ hl₁ hsf)
      · have hl₁f : sumWeight l₁ ≤ (j2 : Int) := by
          rw [sumWeight_append, sumWeight_cons, sumWeight_nil] at hsf
          omega
        have hmono : DPCell.lt ((A j2).addItem q.profit q.id) (candOf (l₁ ++ [q])) = false := by
          rw [candOf_append_single,
            cellLt_addItem (hA j2 hj2le).wf (by simp [candOf, idsOf])]
          exact hd₁ l₁ hl₁ hl₁f
        exact DPCell.ge_trans (maxCell_ge_right _ _) hmono
  · rw [if_neg hwle]
    obtain ⟨⟨s₀, hs₀sub, hs₀f, hs₀e⟩, hd₀⟩ := hA j hj
    constructor
    · exact ⟨s₀, List.sublist_append_of_sublist_left hs₀sub, hs₀f, hs₀e⟩
    · intro s hssub hsf
      rcases List.sublist_append_iff.mp hssub with ⟨l₁, l₂, rfl, hl₁, hl₂⟩
      rcases sublist_single hl₂ with rfl | rfl
      · rw [List.append_nil] at hsf ⊢
        exact hd₀ l₁ hl₁ hsf
      · exfalso
        rw [sumWeight_append, sumWeight_cons, sumWeight_nil] at hsf
        have : 0 ≤ sumWeight l₁ := sumWeight_nonneg (fun r hr => hpre r (hl₁.subset hr))
        omega

theorem dp2dRow_getD (prev : List DPCell) (capacity : Nat) (pal : Pallet) (j : Nat)
    (hj : j ≤ capacity) :
    (dp2dRow prev capacity pal).getD j emptyCell =
      maxCell (prev.getD j emptyCell)
        (if pal.weight ≤ (j : Int)
          then (prev.getD ((j : Int) - pal.weight).toNat emptyCell).addItem pal.profit pal.id
          else emptyCell) :=
  getD_map_range _ (capacity + 1) j (by omega)

/-- Invariant of the 2-D DP engine: after processing a catalog prefix, the
current row holds, at every index `j ≤ capacity`, the best feasible cell
over sublists of that prefix within capacity `j`. -/
theorem dp2d_invariant (pallets : List Pallet) (capacity : Nat)
    (hw : ∀ r ∈ pallets, 0 ≤ r.weight) :
    ∀ j, j ≤ capacity →
      IsBestCell (j : Int) pallets ((dp2dLastRow pallets capacity).getD j emptyCell) := by
  induction pallets using List.reverseRecOn with
  | nil =>
    intro j hj
    unfold dp2dLastRow
    rw [List.foldl_nil, getD_replicate]
    constructor
    · refine ⟨[], List.Sublist.refl [], ?_, candOf_nil⟩
      rw [sumWeight_nil]
      exact Int.natCast_nonneg j
    · intro s hs _
      rw [List.sublist_nil.mp hs, candOf_nil]
      exact DPCell.lt_irrefl emptyCell
  | append_singleton xs x ih =>
    intro j hj
    have hwxs : ∀ r ∈ xs, 0 ≤ r.weight := fun r hr => hw r (by simp [hr])
    have hrow : dp2dLastRow (xs ++ [x]) capacity =
        dp2dRow (dp2dLastRow xs capacity) capacity x := by
      unfold dp2dLastRow
      rw [List.foldl_append, List.foldl_cons, List.foldl_nil]
    rw [hrow]
    refine dpStep_invariant capacity xs x hw
      (fun j2 => (dp2dLastRow xs capacity).getD j2 emptyCell)
      (fun j2 => (dp2dRow (dp2dLastRow xs capacity) capacity x).getD j2 emptyCell)
      (ih hwxs) ?_ j hj
    intro j2 hj'
    show (dp2dRow (dp2dLastRow xs capacity) capacity x).getD j2 emptyCell =
      if x.weight ≤ (j2 : Int)
      then maxCell ((dp2dLastRow xs capacity).getD j2 emptyCell)
        (((dp2dLastRow xs capacity).getD ((j2 : Int) - x.weight).toNat
          emptyCell).addItem x.profit x.id)
      else (dp2dLastRow xs capacity).getD j2 emptyCell
    rw [dp2dRow_getD _ _ _ _ hj']
    by_cases hwle : x.weight ≤ (j2 : Int)
    · rw [if_pos hwle, if_pos hwle]
    · rw [if_neg hwle, if_neg hwle,
        maxCell_emptyCell (ih hwxs j2 hj') (Int.natCast_nonneg j2)]

/-- The 2-D DP engine's reported cell is the best feasible candidate over
all subsets of the catalog within the full capacity. -/
theorem runDynamicProgramming_isBest (pallets : List Pallet) (capacity : Nat)
    (hw : ∀ r ∈ pallets, 0 ≤ r.weight) :
    IsBestCell (capacity : Int) pallets (runDynamicProgramming pallets capacity) :=
  dp2d_invariant pallets capacity hw capacity le_rfl

theorem dp1dUpdate_length (w p pid : Int) (dp : List DPCell) (j : Nat) :
    (dp1dUpdate w p pid dp j).length = dp.length := by
  unfold dp1dUpdate
  split
  · split
    · exact List.length_set dp j _
    · rfl
  · rfl

theorem dp1dUpdate_getD_ne (w p pid : Int) (dp : List DPCell) {i j : Nat} (h : i ≠ j) :
    (dp1dUpdate w p pid dp j).getD i emptyCell = dp.getD i emptyCell := by
  unfold dp1dUpdate
  split
  · split
    · rw [List.getD_eq_getElem?_getD, List.getElem?_set_ne (fun he => h he.symm),
        ← List.getD_eq_getElem?_getD]
    · rfl
  · rfl

theorem dp1dUpdate_getD_self (w p pid : Int) (dp : List DPCell) (j : Nat)
    (hlen : j < dp.length) :
    (dp1dUpdate w p pid dp j).getD j emptyCell =
      if w ≤ (j : Int)
      then maxCell (dp.getD j emptyCell)
        ((dp.getD ((j : Int) - w).toNat emptyCell).addItem p pid)
      else dp.getD j emptyCell := by
  unfold dp1dUpdate maxCell
  split
  · split
    · rw [List.getD_eq_getElem?_getD, List.getElem?_set_self hlen]
      rfl
    · rfl
  · rfl

theorem dp1dScan_length (w p pid : Int) :
    ∀ (k : Nat) (dp : List DPCell), (dp1dScan w p pid k dp).length = dp.length := by
  intro k
  induction k with
  | zero => intro dp; exact dp1dUpdate_length w p pid dp 0
  | succ k ih =>
    intro dp
    show (dp1dScan w p pid k (dp1dUpdate w p pid dp (k + 1))).length = dp.length
    rw [ih, dp1dUpdate_length]

/-- The 1-D in-place descending scan computes exactly one application of the
DP recurrence at every index: because updates walk capacity downward, the
read of `dp[j - w]` always sees the value from before this pallet's pass. -/
theorem dp1dScan_getD (w p pid : Int) (hw0 : 0 ≤ w) :
    ∀ (k : Nat) (dp : List DPCell) (i : Nat), i < dp.length →
      (dp1dScan w p pid k dp).getD i emptyCell =
        if i ≤ k ∧ w ≤ (i : Int)
        then maxCell (dp.getD i emptyCell)
          ((dp.getD ((i : Int) - w).toNat emptyCell).addItem p pid)
        else dp.getD i emptyCell := by
  intro k
  induction k with
  | zero =>
    intro dp i hlen
    show (dp1dUpdate w p pid dp 0).getD i emptyCell = _
    by_cases hi : i = 0
    · subst hi
      rw [dp1dUpdate_getD_self w p pid dp 0 hlen]
      by_cases hwle : w ≤ ((0 : Nat) : Int)
      · rw [if_pos hwle, if_pos ⟨le_rfl, hwle⟩]
      · rw [if_neg hwle, if_neg (fun hc => hwle hc.2)]
    · rw [dp1dUpdate_getD_ne w p pid dp hi,
        if_neg (fun hc => hi (Nat.le_zero.mp hc.1))]
  | succ k ih =>
    intro dp i hlen
    show (dp1dScan w p pid k (dp1dUpdate w p pid dp (k + 1))).getD i emptyCell = _
    have hlen2 : i < (dp1dUpdate w p pid dp (k + 1)).length := by
      rw [dp1dUpdate_length]; exact hlen
    rw [ih (dp1dUpdate w p pid dp (k + 1)) i hlen2]
    by_cases hik : i ≤ k
    · have hne : i ≠ k + 1 := by omega
      by_cases hwle : w ≤ (i : Int)
      · have hne2 : ((i : Int) - w).toNat ≠ k + 1 := by omega
        rw [if_pos ⟨hik, hwle⟩, if_pos ⟨by omega, hwle⟩,
          dp1dUpdate_getD_ne w p pid dp hne, dp1dUpdate_getD_ne w p pid dp hne2]
      · rw [if_neg (fun hc => hwle hc.2), if_neg (fun hc => hwle hc.2),
          dp1dUpdate_getD_ne w p pid dp hne]
    · by_cases hik2 : i = k + 1
      · subst hik2
        rw [if_neg (fun hc => hik hc.1), dp1dUpdate_getD_self w p pid dp (k + 1) hlen]
        by_cases hwle : w ≤ ((k + 1 : Nat) : Int)
        · rw [if_pos hwle, if_pos ⟨le_rfl, hwle⟩]
        · rw [if_neg hwle, if_neg (fun hc => hwle hc.2)]
      · have hne : i ≠ k + 1 := hik2
        rw [if_neg (fun hc => hik hc.1), dp1dUpdate_getD_ne w p pid dp hne,
          if_neg (fun hc => hne (by omega))]

theorem dp1dArray_length (pallets : List Pallet) (capacity : Nat) :
    (dp1dArray pallets capacity).length = capacity + 1 := by
  unfold dp1dArray
  induction pallets using List.reverseRecOn with
  | nil => rw [List.foldl_nil, List.length_replicate]
  | append_singleton xs x ih =>
    rw [List.foldl_append, List.foldl_cons, List.foldl_nil, dp1dScan_length, ih]

/-- Invariant of the 1-D DP engine: after processing a catalog prefix, the
array holds, at every index `j ≤ capacity`, the best feasible cell over
sublists of that prefix within capacity `j` — the same invariant as the
2-D engine's current row. -/
theorem dp1d_invariant (pallets : List Pallet) (capacity : Nat)
    (hw : ∀ r ∈ pallets, 0 ≤ r.weight) :
    ∀ j, j ≤ capacity →
      IsBestCell (j : Int) pallets ((dp1dArray pallets capacity).getD j emptyCell) := by
  induction pallets using List.reverseRecOn with
  | nil =>
    intro j hj
    unfold dp1dArray
    rw [List.foldl_nil, getD_replicate]
    constructor
    · refine ⟨[], List.Sublist.refl [], ?_, candOf_nil⟩
      rw [sumWeight_nil]
      exact Int.natCast_nonneg j
    · intro s hs _
      rw [List.sublist_nil.mp hs, candOf_nil]
      exact DPCell.lt_irrefl emptyCell
  | append_singleton xs x ih =>
    intro j hj
    have hwxs : ∀ r ∈ xs, 0 ≤ r.weight := fun r hr => hw r (by simp [hr])
    have hwx : 0 ≤ x.weight := hw x (by simp)
    have harr : dp1dArray (xs ++ [x]) capacity =
        dp1dScan x.weight x.profit x.id capacity (dp1dArray xs capacity) := by
      unfold dp1dArray
      rw [List.foldl_append, List.foldl_cons, List.foldl_nil]
    rw [harr]
    refine dpStep_invariant capacity xs x hw
      (fun j2 => (dp1dArray xs capacity).getD j2 emptyCell)
      (fun j2 => (dp1dScan x.weight x.profit x.id capacity
        (dp1dArray xs capacity)).getD j2 emptyCell)
      (ih hwxs) ?_ j hj
    intro j2 hj'
    show (dp1dScan x.weight x.profit x.id capacity
        (dp1dArray xs capacity)).getD j2 emptyCell =
      if x.weight ≤ (j2 : Int)
      then maxCell ((dp1dArray xs capacity).getD j2 emptyCell)
        (((dp1dArray xs capacity).getD ((j2 : Int) - x.weight).toNat
          emptyCell).addItem x.profit x.id)
      else (dp1dArray xs capacity).getD j2 emptyCell
    rw [dp1dScan_getD x.weight x.profit x.id hwx capacity (dp1dArray xs capacity) j2
      (by rw [dp1dArray_length]; omega)]
    by_cases hwle : x.weight ≤ (j2 : Int)
    · rw [if_pos ⟨hj', hwle⟩, if_pos hwle]
    · rw [if_neg (fun hc => hwle hc.2), if_neg hwle]

theorem foldMax_ge_init (c : DPCell) (l : List DPCell) :
    DPCell.lt (l.foldl (fun best c2 => if DPCell.lt best c2 then c2 else best) c) c
      = false := by
  induction l generalizing c with
  | nil => exact DPCell.lt_irrefl c
  | cons d rest ih =>
    have hstep : DPCell.lt (if DPCell.lt c d then d else c) c = false := by
      split
      · next h => exact DPCell.lt_asymm h
      · exact DPCell.lt_irrefl c
    exact DPCell.ge_trans (ih (if DPCell.lt c d then d else c)) hstep

theorem foldMax_ge (c : DPCell) (l : List DPCell) :
    ∀ x ∈ c :: l,
      DPCell.lt (l.foldl (fun best c2 => if DPCell.lt best c2 then c2 else best) c) x
        = false := by
  induction l generalizing c with
  | nil =>
    intro x hx
    rw [List.mem_singleton.mp hx]
    exact DPCell.lt_irrefl c
  | cons d rest ih =>
    intro x hx
    have hstep_c : DPCell.lt (if DPCell.lt c d then d else c) c = false := by
      split
      · next h => exact DPCell.lt_asymm h
      · exact DPCell.lt_irrefl c
    have hstep_d : DPCell.lt (if DPCell.lt c d then d else c) d = false := by
      split
      · exact DPCell.lt_irrefl d
      · next h => exact Bool.eq_false_iff.mpr h
    rcases List.mem_cons.mp hx with rfl | hx2
    · exact DPCell.ge_trans (foldMax_ge_init _ rest) hstep_c
    · rcases List.mem_cons.mp hx2 with rfl | hx3
      · exact DPCell.ge_trans (foldMax_ge_init _ rest) hstep_d
      · exact ih (if DPCell.lt c d then d else c) x (List.mem_cons_of_mem _ hx3)

theorem foldMax_mem (c : DPCell) (l : List DPCell) :
    l.foldl (fun best c2 => if DPCell.lt best c2 then c2 else best) c ∈ c :: l := by
  induction l generalizing c with
  | nil => exact List.mem_singleton.mpr rfl
  | cons d rest ih =>
    have h := ih (if DPCell.lt c d then d else c)
    rcases List.mem_cons.mp h with h2 | h2
    · rw [List.foldl_cons]
      rw [h2]
      split
      · exact List.mem_cons_of_mem c (List.mem_cons_self d rest)
      · exact List.mem_cons_self c (d :: rest)
    · exact List.mem_cons_of_mem c (List.mem_cons_of_mem d (by rw [List.foldl_cons]; exact h2))

/-- The 1-D DP engine's reported cell (the best over the whole final array)
is the best feasible candidate over all subsets of the catalog within the
full capacity. -/
theorem runDynamicProgramming1D_isBest (pallets : List Pallet) (capacity : Nat)
    (hw : ∀ r ∈ pallets, 0 ≤ r.weight) :
    IsBestCell (capacity : Int) pallets (runDynamicProgramming1D pallets capacity) := by
  have hlen := dp1dArray_length pallets capacity
  cases harr : dp1dArray pallets capacity with
  | nil => rw [harr] at hlen; exact absurd hlen (by simp)
  | cons c rest =>
    have hres : runDynamicProgramming1D pallets capacity =
        rest.foldl (fun best c2 => if DPCell.lt best c2 then c2 else best) c := by
      unfold runDynamicProgramming1D
      rw [harr]
    set r := rest.foldl (fun best c2 => if DPCell.lt best c2 then c2 else best) c with hr
    have hmem : r ∈ c :: rest := foldMax_mem c rest
    rw [← harr] at hmem
    obtain ⟨i, hi, hie⟩ := List.mem_iff_getElem.mp hmem
    have hile : i ≤ capacity := by rw [dp1dArray_length] at hi; omega
    have higetD : (dp1dArray pallets capacity).getD i emptyCell = r := by
      rw [List.getD_eq_getElem?_getD, List.getElem?_eq_getElem hi, hie]
      rfl
    have hbi : IsBestCell (i : Int) pallets r := by
      rw [← higetD]
      exact dp1d_invariant pallets capacity hw i hile
    have hbC := dp1d_invariant pallets capacity hw capacity le_rfl
    have hCmem : (dp1dArray pallets capacity).getD capacity emptyCell ∈ c :: rest := by
      rw [← harr]
      rw [List.getD_eq_getElem?_getD,
        List.getElem?_eq_getElem (by rw [dp1dArray_length]; omega : capacity < (dp1dArray pallets capacity).length)]
      exact List.getElem_mem _
    have hgeC : DPCell.lt r ((dp1dArray pallets capacity).getD capacity emptyCell) = false :=
      foldMax_ge c rest _ hCmem
    rw [hres]
    constructor
    · obtain ⟨⟨s, hssub, hsf, hse⟩, _⟩ := hbi
      exact ⟨s, hssub, le_trans hsf (by exact_mod_cast hile), hse⟩
    · intro s hssub hsf
      exact DPCell.ge_trans hgeC (hbC.2 s hssub hsf)

/-- An exact representation of a computed `double` ratio with nonzero
divisor: the unreduced fraction (numerator, denominator).  It is compared
by cross-multiplication — exact real comparison, never structural.  This
is a refinement of the program's IEEE-754 `double` comparison: distinct
exact quotients that the `double` division rounds to one value (possible
at large weights/profits) compare unequal here but equal in the program,
which can change the order `std::sort` produces.  For this reason no
theorem in this file asserts anything about *which* sorted order the
program's comparator yields; the greedy results proved below (C6, C8, C9,
C10) are invariant under the permutation the sort chooses. -/
abbrev RatRep := { q : Int × Int // q.2 ≠ 0 }

/-- The ratio `(double)p.weight / p.profit` computed at line 214.  A zero
divisor (profit 0), for which the C++ `double` division yields an IEEE
infinity (weight nonzero) or NaN (weight 0), is the guarded `none` branch. -/
def ratQ (w p : Int) : Option RatRep := if h : p = 0 then none else some ⟨(w, p), h⟩

/-- IEEE `!=` on the modelled ratios, negated: exact equality of the two
quotients, by cross-multiplication.  Exactness makes this finer than the
program's `double ==`, which also identifies distinct quotients that
round to the same `double`.  `none` (±infinity/NaN) equals itself: right
for two same-signed infinities, while a NaN operand (weight 0 / profit 0)
makes the C++ sort comparator not a strict weak order, which is undefined
behavior there and deliberately left defined-but-arbitrary here. -/
def ratioEq : Option RatRep → Option RatRep → Bool
  | some x, some y => decide (x.1.1 * y.1.2 = y.1.1 * x.1.2)
  | none, none => true
  | _, _ => false

/-- IEEE `<` on the modelled ratios: exact comparison of the quotients by
sign-adjusted cross-multiplication (finer than the program's rounded
`double <`, see `RatRep`); a finite ratio is below `none` (the infinity
arising from positive weight / zero profit). -/
def ratioLt : Option RatRep → Option RatRep → Bool
  | some x, some y =>
    if 0 < x.1.2 * y.1.2 then decide (x.1.1 * y.1.2 < y.1.1 * x.1.2)
    else decide (y.1.1 * x.1.2 < x.1.1 * y.1.2)
  | some _, none => true
  | none, _ => false

/-- The local `struct GreedyItem` of `runGreedyApproach` (lines 200–210). -/
structure GreedyItem where
  id : Int
  weight : Int
  profit : Int
  rVal : Option RatRep
deriving DecidableEq

/-- Building the item vector (lines 212–215). -/
def toItem (p : Pallet) : GreedyItem := ⟨p.id, p.weight, p.profit, ratQ p.weight p.profit⟩

/-- `GreedyItem::operator<` (lines 206–209): ascending ratio, ties broken
by descending id. -/
def GreedyItem.lt (a b : GreedyItem) : Bool :=
  if ratioEq a.rVal b.rVal then decide (b.id < a.id) else ratioLt a.rVal b.rVal

/-- The non-strict complement of `GreedyItem::operator<`: the order in
which `std::sort` leaves the item vector (adjacent elements never violate
the comparator). -/
def gle (a b : GreedyItem) : Prop := GreedyItem.lt b a = false

instance : DecidableRel gle :=
  fun a b => inferInstanceAs (Decidable (GreedyItem.lt b a = false))

/-- The rational value of a represented ratio (used only in proofs). -/
def repQ (x : RatRep) : ℚ := (x.1.1 : ℚ) / (x.1.2 : ℚ)

theorem ratioEq_some_iff (x y : RatRep) :
    ratioEq (some x) (some y) = true ↔ repQ x = repQ y := by
  obtain ⟨⟨a, b⟩, hb⟩ := x
  obtain ⟨⟨c, d⟩, hd⟩ := y
  simp only [ratioEq, repQ, decide_eq_true_eq]
  rw [div_eq_div_iff (by exact_mod_cast hb) (by exact_mod_cast hd)]
  constructor
  · intro h; exact_mod_cast h
  · intro h; exact_mod_cast h

theorem ratioLt_some_iff (x y : RatRep) :
    ratioLt (some x) (some y) = true ↔ repQ x < repQ y := by
  obtain ⟨⟨a, b⟩, hb⟩ := x
  obtain ⟨⟨c, d⟩, hd⟩ := y
  simp only [ratioLt, repQ]
  have hbq : ((b : ℚ)) ≠ 0 := by exact_mod_cast hb
  have hdq : ((d : ℚ)) ≠ 0 := by exact_mod_cast hd
  rcases lt_or_gt_of_ne hb with hbneg | hbpos <;>
    rcases lt_or_gt_of_ne hd with hdneg | hdpos
  · rw [if_pos (mul_pos_of_neg_of_neg hbneg hdneg : (0 : Int) < b * d)]
    simp only [decide_eq_true_eq]
    rw [show (a : ℚ) / b = (-a : ℚ) / (-b) by rw [neg_div_neg_eq],
      show (c : ℚ) / d = (-c : ℚ) / (-d) by rw [neg_div_neg_eq],
      div_lt_div_iff (by exact_mod_cast (by omega : (0:Int) < -b))
        (by exact_mod_cast (by omega : (0:Int) < -d))]
    constructor
    · intro h
      have : ((a * d : Int) : ℚ) < ((c * b : Int) : ℚ) := by exact_mod_cast h
      push_cast at this ⊢
      nlinarith [this]
    · intro h
      have h2 : (-(a:ℚ)) * (-(d:ℚ)) < (-(c:ℚ)) * (-(b:ℚ)) := h
      have h3 : ((a * d : Int) : ℚ) < ((c * b : Int) : ℚ) := by push_cast; nlinarith [h2]
      exact_mod_cast h3
  · rw [if_neg (by nlinarith : ¬ (0 : Int) < b * d)]
    simp only [decide_eq_true_eq]
    rw [show (a : ℚ) / b = (-a : ℚ) / (-b) by rw [neg_div_neg_eq],
      div_lt_div_iff (by exact_mod_cast (by omega : (0:Int) < -b))
        (by exact_mod_cast hdpos)]
    constructor
    · intro h
      have : ((c * b : Int) : ℚ) < ((a * d : Int) : ℚ) := by exact_mod_cast h
      push_cast at this ⊢
      nlinarith [this]
    · intro h
      have h3 : ((c * b : Int) : ℚ) < ((a * d : Int) : ℚ) := by push_cast; nlinarith [h]
      exact_mod_cast h3
  · rw [if_neg (by nlinarith : ¬ (0 : Int) < b * d)]
    simp only [decide_eq_true_eq]
    rw [show (c : ℚ) / d = (-c : ℚ) / (-d) by rw [neg_div_neg_eq],
      div_lt_div_iff (by exact_mod_cast hbpos)
        (by exact_mod_cast (by omega : (0:Int) < -d))]
    constructor
    · intro h
      have : ((c * b : Int) : ℚ) < ((a * d : Int) : ℚ) := by exact_mod_cast h
      push_cast at this ⊢
      nlinarith [this]
    · intro h
      have h3 : ((c * b : Int) : ℚ) < ((a * d : Int) : ℚ) := by push_cast; nlinarith [h]
      exact_mod_cast h3
  · rw [if_pos (by positivity : (0 : Int) < b * d)]
    simp only [decide_eq_true_eq]
    rw [div_lt_div_iff (by exact_mod_cast hbpos) (by exact_mod_cast hdpos)]
    constructor
    · intro h
      have : ((a * d : Int) : ℚ) < ((c * b : Int) : ℚ) := by exact_mod_cast h
      push_cast at this ⊢
      exact this
    · intro h
      have h3 : ((a * d : Int) : ℚ) < ((c * b : Int) : ℚ) := by push_cast; exact h
      exact_mod_cast h3

theorem ratioEq_refl (x : Option RatRep) : ratioEq x x = true := by
  cases x with
  | none => rfl
  | some a => simp [ratioEq]

theorem ratioEq_symm {x y : Option RatRep} (h : ratioEq x y = true) :
    ratioEq y x = true := by
  cases x with
  | none =>
    cases y with
    | none => exact h
    | some b => exact absurd h (by simp [ratioEq])
  | some a =>
    cases y with
    | none => exact absurd h (by simp [ratioEq])
    | some b =>
      rw [ratioEq_some_iff] at h ⊢
      exact h.symm

theorem ratioEq_trans {x y z : Option RatRep} (h1 : ratioEq x y = true)
    (h2 : ratioEq y z = true) : ratioEq x z = true := by
  cases x with
  | none =>
    cases y with
    | none => exact h2
    | some b => exact absurd h1 (by simp [ratioEq])
  | some a =>
    cases y with
    | none => exact absurd h1 (by simp [ratioEq])
    | some b =>
      cases z with
      | none => exact absurd h2 (by simp [ratioEq])
      | some c =>
        rw [ratioEq_some_iff] at h1 h2 ⊢
        exact h1.trans h2

theorem ratioLt_irrefl (x : Option RatRep) : ratioLt x x = false := by
  cases x with
  | none => rfl
  | some a =>
    cases h : ratioLt (some a) (some a) with
    | false => rfl
    | true =>
      rw [ratioLt_some_iff] at h
      exact absurd h (lt_irrefl _)

theorem ratioLt_asymm {x y : Option RatRep} (h : ratioLt x y = true) :
    ratioLt y x = false := by
  cases x with
  | none => cases y <;> simp_all [ratioLt]
  | some a =>
    cases y with
    | none => rfl
    | some b =>
      rw [ratioLt_some_iff] at h
      cases h2 : ratioLt (some b) (some a) with
      | false => rfl
      | true =>
        rw [ratioLt_some_iff] at h2
        exact absurd (h.trans h2) (lt_irrefl _)

theorem ratioLt_connex {x y : Option RatRep} (h : ratioEq x y = false) :
    ratioLt x y = true ∨ ratioLt y x = true := by
  cases x with
  | none =>
    cases y with
    | none => rw [ratioEq_refl] at h; exact absurd h (by simp)
    | some b => exact Or.inr rfl
  | some a =>
    cases y with
    | none => exact Or.inl rfl
    | some b =>
      have hne : repQ a ≠ repQ b := by
        intro he
        rw [← ratioEq_some_iff] at he
        rw [he] at h
        exact absurd h (by simp)
      rcases lt_or_gt_of_ne hne with hlt | hgt
      · exact Or.inl ((ratioLt_some_iff a b).mpr hlt)
      · exact Or.inr ((ratioLt_some_iff b a).mpr hgt)

theorem ratioLt_trans {x y z : Option RatRep} (h1 : ratioLt x y = true)
    (h2 : ratioLt y z = true) : ratioLt x z = true := by
  cases x with
  | none => cases y <;> simp_all [ratioLt]
  | some a =>
    cases z with
    | none => rfl
    | some c =>
      cases y with
      | none => cases h2
      | some b =>
        rw [ratioLt_some_iff] at h1 h2 ⊢
        exact h1.trans h2

theorem ratioLt_congr_left {x y : Option RatRep} (h : ratioEq x y = true)
    (z : Option RatRep) : ratioLt x z = ratioLt y z := by
  cases x with
  | none =>
    cases y with
    | none => rfl
    | some b => exact absurd h (by simp [ratioEq])
  | some a =>
    cases y with
    | none => exact absurd h (by simp [ratioEq])
    | some b =>
      rw [ratioEq_some_iff] at h
      cases z with
      | none => rfl
      | some c =>
        cases h2 : ratioLt (some b) (some c) with
        | true =>
          rw [ratioLt_some_iff] at h2 ⊢
          rw [h]
          exact h2
        | false =>
          cases h3 : ratioLt (some a) (some c) with
          | false => rfl
          | true =>
            rw [ratioLt_some_iff] at h3
            rw [h] at h3
            rw [(ratioLt_some_iff b c).mpr h3] at h2
            exact h2

theorem ratioLt_congr_right {x y : Option RatRep} (h : ratioEq x y = true)
    (z : Option RatRep) : ratioLt z x = ratioLt z y := by
  cases x with
  | none =>
    cases y with
    | none => rfl
    | some b => exact absurd h (by simp [ratioEq])
  | some a =>
    cases y with
    | none => exact absurd h (by simp [ratioEq])
    | some b =>
      rw [ratioEq_some_iff] at h
      cases z with
      | none => rfl
      | some c =>
        cases h2 : ratioLt (some c) (some b) with
        | true =>
          rw [ratioLt_some_iff] at h2 ⊢
          rw [h]
          exact h2
        | false =>
          cases h3 : ratioLt (some c) (some a) with
          | false => rfl
          | true =>
            rw [ratioLt_some_iff] at h3
            rw [h] at h3
            rw [(ratioLt_some_iff c b).mpr h3] at h2
            exact h2

instance : IsTotal GreedyItem gle := by
  constructor
  intro a b
  unfold gle GreedyItem.lt
  by_cases hr : ratioEq a.rVal b.rVal = true
  · rw [if_pos (ratioEq_symm hr), if_pos hr]
    simp only [decide_eq_false_iff_not, not_lt]
    omega
  · have hr1 : ratioEq a.rVal b.rVal = false := Bool.eq_false_iff.mpr hr
    have hr2 : ratioEq b.rVal a.rVal = false := by
      cases h2 : ratioEq b.rVal a.rVal with
      | false => rfl
      | true => rw [ratioEq_symm h2] at hr1; exact hr1
    rw [if_neg (by rw [hr2]; exact Bool.false_ne_true),
      if_neg (by rw [hr1]; exact Bool.false_ne_true)]
    rcases ratioLt_connex hr1 with hlt | hlt
    · exact Or.inl (ratioLt_asymm hlt)
    · exact Or.inr (ratioLt_asymm hlt)

instance : IsTrans GreedyItem gle := by
  constructor
  intro a b c h1 h2
  unfold gle GreedyItem.lt at h1 h2 ⊢
  by_cases e1 : ratioEq b.rVal a.rVal = true <;>
    by_cases e2 : ratioEq c.rVal b.rVal = true
  · rw [if_pos e1] at h1
    rw [if_pos e2] at h2
    rw [if_pos (ratioEq_trans e2 e1)]
    simp only [decide_eq_false_iff_not, not_lt] at h1 h2 ⊢
    omega
  · have e2f : ratioEq c.rVal b.rVal = false := Bool.eq_false_iff.mpr e2
    have e3 : ratioEq c.rVal a.rVal = false := by
      cases h3 : ratioEq c.rVal a.rVal with
      | false => rfl
      | true => exact absurd (ratioEq_trans h3 (ratioEq_symm e1)) e2
    rw [if_neg (by rw [e2f]; exact Bool.false_ne_true)] at h2
    rw [if_neg (by rw [e3]; exact Bool.false_ne_true)]
    rw [ratioLt_congr_right (ratioEq_symm e1)]
    exact h2
  · have e1f : ratioEq b.rVal a.rVal = false := Bool.eq_false_iff.mpr e1
    have e3 : ratioEq c.rVal a.rVal = false := by
      cases h3 : ratioEq c.rVal a.rVal with
      | false => rfl
      | true => exact absurd (ratioEq_trans (ratioEq_symm e2) h3) e1
    rw [if_neg (by rw [e1f]; exact Bool.false_ne_true)] at h1
    rw [if_neg (by rw [e3]; exact Bool.false_ne_true)]
    rw [ratioLt_congr_left e2]
    exact h1
  · have e1f : ratioEq b.rVal a.rVal = false := Bool.eq_false_iff.mpr e1
    have e2f : ratioEq c.rVal b.rVal = false := Bool.eq_false_iff.mpr e2
    rw [if_neg (by rw [e1f]; exact Bool.false_ne_true)] at h1
    rw [if_neg (by rw [e2f]; exact Bool.false_ne_true)] at h2
    have hab : ratioLt a.rVal b.rVal = true := by
      rcases ratioLt_connex e1f with hlt | hlt
      · rw [hlt] at h1; exact absurd h1 (by simp)
      · exact hlt
    have hbc : ratioLt b.rVal c.rVal = true := by
      rcases ratioLt_connex e2f with hlt | hlt
      · rw [hlt] at h2; exact absurd h2 (by simp)
      · exact hlt
    have hac := ratioLt_trans hab hbc
    by_cases e3 : ratioEq c.rVal a.rVal = true
    · exfalso
      rw [ratioLt_congr_right e3 a.rVal] at hac
      rw [ratioLt_irrefl] at hac
      exact absurd hac (by simp)
    · have e3f : ratioEq c.rVal a.rVal = false := Bool.eq_false_iff.mpr e3
      rw [if_neg (by rw [e3f]; exact Bool.false_ne_true)]
      exact ratioLt_asymm hac

/-- The greedy acceptance loop (lines 223–229): walk the sorted items,
accept an item exactly when the running weight plus its weight stays
within capacity; return the accepted items in acceptance order. -/
def greedySelect (capacity : Int) : List GreedyItem → Int → List GreedyItem
  | [], _ => []
  | it :: rest, tw =>
    if tw + it.weight ≤ capacity then it :: greedySelect capacity rest (tw + it.weight)
    else greedySelect capacity rest tw

/-- The item vector after `sort(items.begin(), items.end())` (line 217):
a permutation of the items ordered by the modelled `GreedyItem::operator<`
(`std::sort`'s postcondition; the exact algorithm is unspecified, and for
a catalog with distinct (ratio, id) keys the sorted order is unique).
Because the modelled comparator is exact where the program compares
rounded `double`s (see `RatRep`), the order produced here can differ from
the program's on ratio near-collisions; the general theorems below that
use this definition depend only on it being *some* permutation of the
items (so they hold of the program for whichever order its sort
produces), and the concrete evaluations use only small instances whose
ratios are exactly representable and well separated, where the rounded
and exact comparisons coincide. -/
def sortedItems (pallets : List Pallet) : List GreedyItem :=
  List.insertionSort gle (pallets.map toItem)

/-- `runGreedyApproach` (lines 199–239): sort by ratio, greedily accept,
report the total profit and the accepted ids re-sorted ascending
(line 231's `sort(selected.begin(), selected.end())`). -/
def runGreedyApproach (pallets : List Pallet) (capacity : Int) : Int × List Int :=
  ((((greedySelect capacity (sortedItems pallets) 0)).map GreedyItem.profit).sum,
    List.insertionSort (· ≤ ·)
      ((greedySelect capacity (sortedItems pallets) 0).map GreedyItem.id))

theorem greedySelect_sublist (capacity : Int) :
    ∀ (l : List GreedyItem) (tw : Int), greedySelect capacity l tw <+ l := by
  intro l
  induction l with
  | nil => intro tw; exact List.Sublist.refl []
  | cons it rest ih =>
    intro tw
    unfold greedySelect
    split
    · exact (ih (tw + it.weight)).cons₂ it
    · exact (ih tw).cons it

theorem greedySelect_weight (capacity : Int) :
    ∀ (l : List GreedyItem) (tw : Int),
      tw + ((greedySelect capacity l tw).map GreedyItem.weight).sum ≤ capacity ∨
        greedySelect capacity l tw = [] := by
  intro l
  induction l with
  | nil => intro tw; exact Or.inr rfl
  | cons it rest ih =>
    intro tw
    unfold greedySelect
    split
    · next hacc =>
      rcases ih (tw + it.weight) with h | h
      · refine Or.inl ?_
        rw [List.map_cons, List.sum_cons]
        omega
      · refine Or.inl ?_
        rw [h, List.map_cons, List.map_nil, List.sum_cons, List.sum_nil]
        omega
    · exact ih tw

theorem greedySelect_nil_of_neg {capacity : Int} (hc : capacity < 0) :
    ∀ (l : List GreedyItem) (tw : Int), 0 ≤ tw → (∀ it ∈ l, 0 ≤ it.weight) →
      greedySelect capacity l tw = [] := by
  intro l
  induction l with
  | nil => intro tw _ _; rfl
  | cons it rest ih =>
    intro tw htw hwl
    have hit : 0 ≤ it.weight := hwl it (List.mem_cons_self _ _)
    unfold greedySelect
    rw [if_neg (by omega)]
    exact ih tw htw (fun x hx => hwl x (List.mem_cons_of_mem it hx))

theorem map_toItem_profit (s : List Pallet) :
    (s.map toItem).map GreedyItem.profit = s.map Pallet.profit := by
  rw [List.map_map]
  rfl

theorem map_toItem_weight (s : List Pallet) :
    (s.map toItem).map GreedyItem.weight = s.map Pallet.weight := by
  rw [List.map_map]
  rfl

theorem map_toItem_id (s : List Pallet) :
    (s.map toItem).map GreedyItem.id = s.map Pallet.id := by
  rw [List.map_map]
  rfl

/-- The greedy selection, traced back to the catalog: there is a genuine
sub-list `s` of the catalog whose profit/weight/ids the greedy result
reports (up to the final ascending re-sort of the ids). -/
theorem greedy_subset (pallets : List Pallet) (capacity : Int) (hc : 0 ≤ capacity) :
    ∃ s, s <+ pallets ∧ sumWeight s ≤ capacity ∧
      (runGreedyApproach pallets capacity).1 = sumProfit s ∧
      (runGreedyApproach pallets capacity).2.Perm (idsOf s) := by
  have hsub : greedySelect capacity (sortedItems pallets) 0 <+ sortedItems pallets :=
    greedySelect_sublist capacity (sortedItems pallets) 0
  have hperm : sortedItems pallets ~ pallets.map toItem :=
    List.perm_insertionSort gle (pallets.map toItem)
  have hsp : greedySelect capacity (sortedItems pallets) 0 <+~ pallets.map toItem :=
    hsub.subperm.trans hperm.subperm
  obtain ⟨l', hlperm, hlsub⟩ := hsp
  obtain ⟨s, hssub, rfl⟩ := List.sublist_map_iff.mp hlsub
  refine ⟨s, hssub, ?_, ?_, ?_⟩
  · have hwsum : ((greedySelect capacity (sortedItems pallets) 0).map
        GreedyItem.weight).sum = sumWeight s := by
      rw [← (hlperm.map GreedyItem.weight).sum_eq, map_toItem_weight]
      rfl
    rcases greedySelect_weight capacity (sortedItems pallets) 0 with h | h
    · omega
    · rw [h] at hwsum
      simp only [List.map_nil, List.sum_nil] at hwsum
      omega
  · show ((greedySelect capacity (sortedItems pallets) 0).map GreedyItem.profit).sum = _
    rw [← (hlperm.map GreedyItem.profit).sum_eq, map_toItem_profit]
    rfl
  · show (List.insertionSort (· ≤ ·)
      ((greedySelect capacity (sortedItems pallets) 0).map GreedyItem.id)).Perm (idsOf s)
    refine (List.perm_insertionSort (· ≤ ·) _).trans ?_
    have h2 := (hlperm.map GreedyItem.id).symm
    rw [map_toItem_id] at h2
    exact h2

theorem cellLt_false_profit {c d : DPCell} (h : DPCell.lt c d = false) :
    d.profit ≤ c.profit := by
  by_cases hp : c.profit = d.profit
  · omega
  · unfold DPCell.lt at h
    rw [if_pos hp] at h
    simp only [decide_eq_false_iff_not, not_lt] at h
    exact h

/-- The greedy result's profit never exceeds the enumerator's. -/
theorem greedy_le_bruteforce (pallets : List Pallet) (capacity : Int) (hc : 0 ≤ capacity) :
    (runGreedyApproach pallets capacity).1 ≤ (runBruteForce pallets capacity).1 := by
  obtain ⟨s, hssub, hsf, hprofit, _⟩ := greedy_subset pallets capacity hc
  have hbest := bf_isBest pallets capacity hc
  have hdom := hbest.2 s hssub hsf
  have := cellLt_false_profit hdom
  rw [hprofit]
  exact this

/-- The sorted-order relation, unfolded: ascending ratio, ties broken by
descending id. -/
theorem gle_iff (a b : GreedyItem) :
    gle a b ↔
      (ratioLt a.rVal b.rVal = true ∨ (ratioEq a.rVal b.rVal = true ∧ b.id ≤ a.id)) := by
  unfold gle GreedyItem.lt
  by_cases hr : ratioEq b.rVal a.rVal = true
  · rw [if_pos hr]
    have hr2 : ratioEq a.rVal b.rVal = true := ratioEq_symm hr
    constructor
    · intro h
      simp only [decide_eq_false_iff_not, not_lt] at h
      exact Or.inr ⟨hr2, h⟩
    · rintro (h | ⟨_, h2⟩)
      · rw [ratioLt_congr_left hr2 b.rVal] at h
        rw [ratioLt_irrefl] at h
        exact absurd h (by simp)
      · simp only [decide_eq_false_iff_not, not_lt]
        omega
  · have hrf : ratioEq b.rVal a.rVal = false := Bool.eq_false_iff.mpr hr
    rw [if_neg (by rw [hrf]; exact Bool.false_ne_true)]
    have hr2 : ratioEq a.rVal b.rVal = false := by
      cases h2 : ratioEq a.rVal b.rVal with
      | false => rfl
      | true => exact absurd (ratioEq_symm h2) hr
    constructor
    · intro h
      rcases ratioLt_connex hrf with h2 | h2
      · rw [h] at h2
        exact absurd h2 (by simp)
      · exact Or.inl h2
    · rintro (h | ⟨h1, _⟩)
      · exact ratioLt_asymm h
      · rw [h1] at hr2
        exact absurd hr2 (by simp)

theorem sortedItems_weight_nonneg {pallets : List Pallet}
    (hw : ∀ r ∈ pallets, 0 ≤ r.weight) :
    ∀ it ∈ sortedItems pallets, 0 ≤ it.weight := by
  intro it hit
  have hmem : it ∈ pallets.map toItem :=
    (List.perm_insertionSort gle (pallets.map toItem)).mem_iff.mp hit
  obtain ⟨p, hp, rfl⟩ := List.mem_map.mp hmem
  exact hw p hp

theorem runBruteForce_neg (pallets : List Pallet) (capacity : Int)
    (hc : capacity < 0) (hw : ∀ r ∈ pallets, 0 ≤ r.weight) :
    runBruteForce pallets capacity = (0, []) := by
  apply pairCell_inj
  rw [runBruteForce_cell]
  rw [foldl_stepC_of_infeasible]
  · rfl
  · intro s hs
    have hsub := mem_maskSubsets_iff.mp hs
    have := sumWeight_nonneg (fun r hr => hw r (hsub.subset hr))
    omega

theorem runBruteForceBacktrack_neg (pallets : List Pallet) (capacity : Int)
    (hc : capacity < 0) :
    runBruteForceBacktrack pallets capacity = (0, []) := by
  cases pallets with
  | nil =>
    show (if (0 : Int) ≤ capacity ∧ betterThan 0 [] 0 [] = true then ((0 : Int), ([] : List Int))
      else (0, [])) = (0, [])
    rw [if_neg (fun h => absurd h.1 (by omega))]
  | cons q rest =>
    show (if (0 : Int) > capacity then ((0 : Int), ([] : List Int)) else _) = (0, [])
    rw [if_pos (by omega)]

theorem runGreedyApproach_neg (pallets : List Pallet) (capacity : Int)
    (hc : capacity < 0) (hw : ∀ r ∈ pallets, 0 ≤ r.weight) :
    runGreedyApproach pallets capacity = (0, []) := by
  have hsel : greedySelect capacity (sortedItems pallets) 0 = [] :=
    greedySelect_nil_of_neg hc (sortedItems pallets) 0 le_rfl (sortedItems_weight_nonneg hw)
  unfold runGreedyApproach
  rw [hsel]
  rfl

/-- Ascending sort of an id list (`sort(selected.begin(), selected.end())`,
and the normalization used by the spec when comparing member sequences). -/
def sortAsc (l : List Int) : List Int := List.insertionSort (· ≤ ·) l

/-- Modelled from the spec (§4.1, claim C1): the tie-break comparison as
the specification words it, with the member sequences compared *after
re-sorting to ascending numeric order*.  This spec-side definition exists
only to be compared against the code's comparator `betterThan`, which
compares the sequences in the order the ids were discovered. -/
def specTieBreakBetter (p : Int) (cur : List Int) (maxP : Int) (best : List Int) : Bool :=
  decide (p > maxP) || (decide (p = maxP) && decide (cur.length < best.length)) ||
    (decide (p = maxP) && decide (cur.length = best.length) &&
      lexLt (sortAsc cur) (sortAsc best))

/-- All pallets of a catalog have the same weight-to-profit ratio
(equivalently the same profit-to-weight ratio). -/
def allSameRatio (pallets : List Pallet) : Prop :=
  ∀ p ∈ pallets, ∀ q ∈ pallets,
    ratioEq (ratQ p.weight p.profit) (ratQ q.weight q.profit) = true

/-- A catalog valid per the data model (§3): pairwise-distinct ids and
non-negative weights and profits. -/
def ValidCatalog (pallets : List Pallet) : Prop :=
  (pallets.map Pallet.id).Nodup ∧ ∀ p ∈ pallets, 0 ≤ p.weight ∧ 0 ≤ p.profit

instance (pallets : List Pallet) : Decidable (allSameRatio pallets) := by
  unfold allSameRatio
  infer_instance

instance (pallets : List Pallet) : Decidable (ValidCatalog pallets) := by
  unfold ValidCatalog
  infer_instance

/-- Claim C1, counterexample.  The claim says the exact methods compare
candidates with member sequences taken *in ascending numeric order*.  On
the catalog [{id 5, w 1, p 1}, {id 1, w 3, p 3}, {id 2, w 2, p 2},
{id 4, w 2, p 2}] with capacity 4, the enumerator returns profit 4 with
ids [2, 4]; but the feasible subset decoded from mask 3 (ids [5, 1],
profit 4, size 2) is strictly better under the ascending-order tie-break
(sorted members [1, 5] < [2, 4]), so the code does not maximize the
claimed ordering. -/
theorem claim_C1_counterexample :
    runBruteForce [⟨5, 1, 1⟩, ⟨1, 3, 3⟩, ⟨2, 2, 2⟩, ⟨4, 2, 2⟩] 4 = (4, [2, 4]) ∧
    subsetOf [⟨5, 1, 1⟩, ⟨1, 3, 3⟩, ⟨2, 2, 2⟩, ⟨4, 2, 2⟩] 3 = [⟨5, 1, 1⟩, ⟨1, 3, 3⟩] ∧
    sumWeight [⟨5, 1, 1⟩, ⟨1, 3, 3⟩] ≤ 4 ∧
    specTieBreakBetter (sumProfit [⟨5, 1, 1⟩, ⟨1, 3, 3⟩])
      (idsOf [⟨5, 1, 1⟩, ⟨1, 3, 3⟩]) 4 [2, 4] = true := by
  refine ⟨by decide, by decide, by decide, by decide⟩

/-- Claim C1, amended.  The exact methods (enumerator, backtracking, both
DP engines) share one tie-break ordering — profit first, then fewer
members, then the lexicographically smaller member sequence — but the
member sequences are compared in the order the ids were appended
(catalog/discovery order), not re-sorted ascending; the two coincide when
the catalog is listed in ascending id order.  In particular, for the
two-pallet instance {id 1, w 5, p 10}, {id 2, w 5, p 10} with capacity 5,
every exact method selects {1} with profit 10. -/
theorem claim_C1_amended :
    (∀ (p : Int) (cur : List Int) (maxP : Int) (best : List Int),
      betterThan p cur maxP best =
        DPCell.lt ⟨maxP, best.length, best⟩ ⟨p, cur.length, cur⟩) ∧
    runBruteForce [⟨1, 5, 10⟩, ⟨2, 5, 10⟩] 5 = (10, [1]) ∧
    runBruteForceBacktrack [⟨1, 5, 10⟩, ⟨2, 5, 10⟩] 5 = (10, [1]) ∧
    runDynamicProgramming [⟨1, 5, 10⟩, ⟨2, 5, 10⟩] 5 = ⟨10, 1, [1]⟩ ∧
    runDynamicProgramming1D [⟨1, 5, 10⟩, ⟨2, 5, 10⟩] 5 = ⟨10, 1, [1]⟩ :=
  ⟨betterThan_eq_cellLt, by decide, by decide, by decide, by decide⟩

/-- Claim C2: for every catalog (non-negative weights, per the data model)
and every non-negative capacity, the backtracking search returns exactly
the same (profit, selected-id sequence) pair as the exhaustive enumerator
— equal even before any normalization of the reporting order. -/
theorem claim_C2 (pallets : List Pallet) (capacity : Int) (hc : 0 ≤ capacity)
    (hw : ∀ r ∈ pallets, 0 ≤ r.weight) :
    runBruteForceBacktrack pallets capacity = runBruteForce pallets capacity :=
  pairCell_inj
    (IsBestCell.unique (bt_isBest pallets capacity hc hw) (bf_isBest pallets capacity hc))

/-- Witness for claim C2 at a concrete instance (a catalog not listed in
ascending id order). -/
theorem claim_C2_witness :
    ((0 : Int) ≤ 5 ∧ ∀ r ∈ [(⟨2, 5, 10⟩ : Pallet), ⟨1, 5, 10⟩], 0 ≤ r.weight) ∧
    runBruteForceBacktrack [⟨2, 5, 10⟩, ⟨1, 5, 10⟩] 5 =
      runBruteForce [⟨2, 5, 10⟩, ⟨1, 5, 10⟩] 5 :=
  ⟨⟨by decide, by decide⟩,
    claim_C2 [⟨2, 5, 10⟩, ⟨1, 5, 10⟩] 5 (by decide) (by decide)⟩

/-- Claim C3: for every catalog (non-negative weights) and every
non-negative capacity, the 2-D DP engine, the 1-D DP engine and the
exhaustive enumerator return the same full result cell — hence the same
profit, and the same selected pallet sets (identical even before
ascending-id normalization). -/
theorem claim_C3 (pallets : List Pallet) (capacity : Nat)
    (hw : ∀ r ∈ pallets, 0 ≤ r.weight) :
    runDynamicProgramming pallets capacity =
      pairCell (runBruteForce pallets (capacity : Int)) ∧
    runDynamicProgramming1D pallets capacity =
      pairCell (runBruteForce pallets (capacity : Int)) := by
  have hc : (0 : Int) ≤ (capacity : Int) := Int.natCast_nonneg capacity
  have hbf := bf_isBest pallets (capacity : Int) hc
  exact ⟨IsBestCell.unique (runDynamicProgramming_isBest pallets capacity hw) hbf,
    IsBestCell.unique (runDynamicProgramming1D_isBest pallets capacity hw) hbf⟩

/-- Witness for claim C3 at the spec's size-vs-profit tie scenario. -/
theorem claim_C3_witness :
    (∀ r ∈ [(⟨1, 3, 6⟩ : Pallet), ⟨2, 2, 3⟩, ⟨3, 1, 3⟩], 0 ≤ r.weight) ∧
    runDynamicProgramming [⟨1, 3, 6⟩, ⟨2, 2, 3⟩, ⟨3, 1, 3⟩] 3 =
      pairCell (runBruteForce [⟨1, 3, 6⟩, ⟨2, 2, 3⟩, ⟨3, 1, 3⟩] 3) ∧
    runDynamicProgramming1D [⟨1, 3, 6⟩, ⟨2, 2, 3⟩, ⟨3, 1, 3⟩] 3 =
      pairCell (runBruteForce [⟨1, 3, 6⟩, ⟨2, 2, 3⟩, ⟨3, 1, 3⟩] 3) :=
  ⟨by decide, (claim_C3 [⟨1, 3, 6⟩, ⟨2, 2, 3⟩, ⟨3, 1, 3⟩] 3 (by decide)).1,
    (claim_C3 [⟨1, 3, 6⟩, ⟨2, 2, 3⟩, ⟨3, 1, 3⟩] 3 (by decide)).2⟩

/-- Claim C4: in the 2-D DP engine, for every catalog of n pallets with
non-negative weights, every capacity C, all i ≤ n and all j ≤ C, the row
the engine has computed after processing the first i pallets holds at
index j the best feasible candidate (under the engines' shared tie-break
order, `DPCell::operator<`) over subsets of the first i pallets within
capacity j; and the engine's reported result is cell [n][C]. -/
theorem claim_C4 (pallets : List Pallet) (capacity : Nat)
    (hw : ∀ r ∈ pallets, 0 ≤ r.weight) :
    (∀ i, i ≤ pallets.length → ∀ j, j ≤ capacity →
      IsBestCell (j : Int) (pallets.take i)
        ((dp2dLastRow (pallets.take i) capacity).getD j emptyCell)) ∧
    runDynamicProgramming pallets capacity =
      (dp2dLastRow pallets capacity).getD capacity emptyCell := by
  refine ⟨?_, rfl⟩
  intro i _ j hj
  exact dp2d_invariant (pallets.take i) capacity
    (fun r hr => hw r (List.take_subset i pallets hr)) j hj

/-- Witness for claim C4 at a concrete instance. -/
theorem claim_C4_witness :
    (∀ r ∈ [(⟨1, 5, 10⟩ : Pallet), ⟨2, 5, 10⟩], 0 ≤ r.weight) ∧
    IsBestCell ((3 : Nat) : Int) ([(⟨1, 5, 10⟩ : Pallet), ⟨2, 5, 10⟩].take 1)
      ((dp2dLastRow ([(⟨1, 5, 10⟩ : Pallet), ⟨2, 5, 10⟩].take 1) 5).getD 3 emptyCell) :=
  ⟨by decide,
    (claim_C4 [⟨1, 5, 10⟩, ⟨2, 5, 10⟩] 5 (by decide)).1 1 (by decide) 3 (by decide)⟩

/-- Claim C5: the 1-D DP engine's descending capacity scan uses each
pallet at most once in any cell's candidate — every cell of the final
array is the candidate of a genuine sub-list of the catalog — and on the
single-pallet instance {id 1, w 2, p 5} with capacity 4 it returns
profit 5 (not 10). -/
theorem claim_C5 :
    (∀ (pallets : List Pallet) (capacity : Nat), (∀ r ∈ pallets, 0 ≤ r.weight) →
      ∀ j, j ≤ capacity → ∃ s, s <+ pallets ∧
        (dp1dArray pallets capacity).getD j emptyCell = candOf s) ∧
    runDynamicProgramming1D [⟨1, 2, 5⟩] 4 = ⟨5, 1, [1]⟩ := by
  constructor
  · intro pallets capacity hw j hj
    obtain ⟨⟨s, hssub, _, hse⟩, _⟩ := dp1d_invariant pallets capacity hw j hj
    exact ⟨s, hssub, hse.symm⟩
  · decide

/-- Witness for claim C5's universally quantified part at a concrete
instance. -/
theorem claim_C5_witness :
    (∀ r ∈ [(⟨1, 2, 5⟩ : Pallet)], 0 ≤ r.weight) ∧
    (∃ s, s <+ [(⟨1, 2, 5⟩ : Pallet)] ∧
      (dp1dArray [⟨1, 2, 5⟩] 4).getD 3 emptyCell = candOf s) :=
  ⟨by decide, claim_C5.1 [⟨1, 2, 5⟩] 4 (by decide) 3 (by decide)⟩

/-- Claim C6, counterexample.  On the catalog [{id 1, w 3, p 3},
{id 2, w 2, p 2}] with capacity 4, every pallet has the same
profit-to-weight ratio (both ratios are 1), yet the greedy approximator
reports profit 2 while the enumerator reports profit 3: equality of the
two profits does NOT hold for every equal-ratio instance (the greedy
tie-break takes id 2 first, which blocks the heavier, more profitable
pallet). -/
theorem claim_C6_counterexample :
    allSameRatio [⟨1, 3, 3⟩, ⟨2, 2, 2⟩] ∧
    (runGreedyApproach [⟨1, 3, 3⟩, ⟨2, 2, 2⟩] 4).1 = 2 ∧
    (runBruteForce [⟨1, 3, 3⟩, ⟨2, 2, 2⟩] 4).1 = 3 := by
  refine ⟨by decide, by decide, by decide⟩

/-- Claim C6, amended: the greedy approximator's profit never exceeds the
exhaustive enumerator's (for any catalog and non-negative capacity), and
there exist instances in which all pallets share one profit-to-weight
ratio and the two profits are equal; but equality does not hold for
*every* equal-ratio instance. -/
theorem claim_C6_amended :
    (∀ (pallets : List Pallet) (capacity : Int), 0 ≤ capacity →
      (runGreedyApproach pallets capacity).1 ≤ (runBruteForce pallets capacity).1) ∧
    (∃ (pallets : List Pallet) (capacity : Int), allSameRatio pallets ∧
      (runGreedyApproach pallets capacity).1 = (runBruteForce pallets capacity).1) :=
  ⟨fun pallets capacity hc => greedy_le_bruteforce pallets capacity hc,
    ⟨[⟨1, 2, 2⟩], 2, by decide, by decide⟩⟩

/-- Witness for claim C6's universally quantified part at a concrete
instance. -/
theorem claim_C6_witness :
    ((0 : Int) ≤ 4) ∧
    (runGreedyApproach [⟨1, 3, 3⟩, ⟨2, 2, 2⟩] 4).1 ≤
      (runBruteForce [⟨1, 3, 3⟩, ⟨2, 2, 2⟩] 4).1 :=
  ⟨by decide, claim_C6_amended.1 [⟨1, 3, 3⟩, ⟨2, 2, 2⟩] 4 (by decide)⟩

/-- Claim C8, counterexample.  No algorithm rejects a negative capacity:
the enumerator, the backtracking search and the greedy approximator all
silently return profit 0 with an empty selection for capacity -1 — an
output indistinguishable from the legitimate result of a valid run (e.g.
the enumerator on the empty catalog with capacity 0). -/
theorem claim_C8_counterexample :
    runBruteForce [⟨1, 5, 10⟩] (-1) = (0, []) ∧
    runBruteForceBacktrack [⟨1, 5, 10⟩] (-1) = (0, []) ∧
    runGreedyApproach [⟨1, 5, 10⟩] (-1) = (0, []) ∧
    runBruteForce [] 0 = (0, []) := by
  refine ⟨by decide, by decide, by decide, by decide⟩

/-- Claim C8, amended: no algorithm validates the capacity.  For every
catalog with non-negative weights and every negative capacity, the
enumerator, the backtracking search and the greedy approximator silently
return profit 0 with an empty selection (no error signal); the two DP
engines instead size their table from `capacity + 1` and index it out of
bounds, which is undefined behavior in C++ and is not modelled. -/
theorem claim_C8_amended (pallets : List Pallet) (capacity : Int)
    (hc : capacity < 0) (hw : ∀ r ∈ pallets, 0 ≤ r.weight) :
    runBruteForce pallets capacity = (0, []) ∧
    runBruteForceBacktrack pallets capacity = (0, []) ∧
    runGreedyApproach pallets capacity = (0, []) :=
  ⟨runBruteForce_neg pallets capacity hc hw,
    runBruteForceBacktrack_neg pallets capacity hc,
    runGreedyApproach_neg pallets capacity hc hw⟩

/-- Witness for claim C8 at a concrete instance. -/
theorem claim_C8_witness :
    ((-2 : Int) < 0 ∧ ∀ r ∈ [(⟨7, 3, 4⟩ : Pallet)], 0 ≤ r.weight) ∧
    runBruteForce [⟨7, 3, 4⟩] (-2) = (0, []) ∧
    runBruteForceBacktrack [⟨7, 3, 4⟩] (-2) = (0, []) ∧
    runGreedyApproach [⟨7, 3, 4⟩] (-2) = (0, []) :=
  ⟨⟨by decide, by decide⟩, claim_C8_amended [⟨7, 3, 4⟩] (-2) (by decide) (by decide)⟩

/-- Claim C9: for every catalog with non-negative weights and profits and
every non-negative capacity, each of the five algorithms reports a
selection drawn from the catalog (a sub-list; for the greedy, up to its
ascending re-sort) whose total weight is at most the capacity, and whose
reported profit is exactly the sum of the selected pallets' profits. -/
theorem claim_C9 (pallets : List Pallet) (capacity : Nat)
    (hw : ∀ r ∈ pallets, 0 ≤ r.weight) (hp : ∀ r ∈ pallets, 0 ≤ r.profit) :
    (∃ s, s <+ pallets ∧ sumWeight s ≤ (capacity : Int) ∧
      runBruteForce pallets (capacity : Int) = (sumProfit s, idsOf s)) ∧
    (∃ s, s <+ pallets ∧ sumWeight s ≤ (capacity : Int) ∧
      runBruteForceBacktrack pallets (capacity : Int) = (sumProfit s, idsOf s)) ∧
    (∃ s, s <+ pallets ∧ sumWeight s ≤ (capacity : Int) ∧
      runDynamicProgramming pallets capacity = candOf s) ∧
    (∃ s, s <+ pallets ∧ sumWeight s ≤ (capacity : Int) ∧
      runDynamicProgramming1D pallets capacity = candOf s) ∧
    (∃ s, s <+ pallets ∧ sumWeight s ≤ (capacity : Int) ∧
      (runGreedyApproach pallets (capacity : Int)).1 = sumProfit s ∧
      (runGreedyApproach pallets (capacity : Int)).2.Perm (idsOf s)) := by
  have hc : (0 : Int) ≤ (capacity : Int) := Int.natCast_nonneg capacity
  refine ⟨?_, ?_, ?_, ?_, greedy_subset pallets (capacity : Int) hc⟩
  · obtain ⟨⟨s, hsub, hf, he⟩, _⟩ := bf_isBest pallets (capacity : Int) hc
    refine ⟨s, hsub, hf, (pairCell_inj ?_).symm⟩
    rw [pairCell_candOf]
    exact he
  · obtain ⟨⟨s, hsub, hf, he⟩, _⟩ := bt_isBest pallets (capacity : Int) hc hw
    refine ⟨s, hsub, hf, (pairCell_inj ?_).symm⟩
    rw [pairCell_candOf]
    exact he
  · obtain ⟨⟨s, hsub, hf, he⟩, _⟩ := runDynamicProgramming_isBest pallets capacity hw
    exact ⟨s, hsub, hf, he.symm⟩
  · obtain ⟨⟨s, hsub, hf, he⟩, _⟩ := runDynamicProgramming1D_isBest pallets capacity hw
    exact ⟨s, hsub, hf, he.symm⟩

/-- Witness for claim C9 at a concrete instance. -/
theorem claim_C9_witness :
    ((∀ r ∈ [(⟨1, 3, 6⟩ : Pallet), ⟨2, 2, 3⟩, ⟨3, 1, 3⟩], 0 ≤ r.weight) ∧
      (∀ r ∈ [(⟨1, 3, 6⟩ : Pallet), ⟨2, 2, 3⟩, ⟨3, 1, 3⟩], 0 ≤ r.profit)) ∧
    (∃ s, s <+ [(⟨1, 3, 6⟩ : Pallet), ⟨2, 2, 3⟩, ⟨3, 1, 3⟩] ∧
      sumWeight s ≤ ((3 : Nat) : Int) ∧
      runBruteForce [⟨1, 3, 6⟩, ⟨2, 2, 3⟩, ⟨3, 1, 3⟩] ((3 : Nat) : Int) =
        (sumProfit s, idsOf s)) :=
  ⟨⟨by decide, by decide⟩,
    (claim_C9 [⟨1, 3, 6⟩, ⟨2, 2, 3⟩, ⟨3, 1, 3⟩] 3 (by decide) (by decide)).1⟩

/-- Claim C10: the greedy approximator divides each pallet's weight by its
profit with no guard; a catalog that is valid under the data model may
contain a pallet with profit 0 (profit is only required non-negative), and
on such a catalog the zero-divisor branch of the guarded ratio embedding
(`ratQ`'s `none`) is reached while building the item vector. -/
theorem claim_C10 :
    ValidCatalog [⟨1, 3, 0⟩] ∧
    (⟨1, 3, 0⟩ : Pallet).profit = 0 ∧
    ratQ (⟨1, 3, 0⟩ : Pallet).weight (⟨1, 3, 0⟩ : Pallet).profit = none ∧
    ([(⟨1, 3, 0⟩ : Pallet)].map toItem).map GreedyItem.rVal = [none] := by
  refine ⟨by decide, rfl, rfl, rfl⟩
